import Mathlib

/-!
Verification development for the video-captioning repository
(`models.py`, `utils.py`).

Shallow embedding conventions:
* tensors are nested lists over `ℚ` (time-major where the source is);
* fallible Python code (assertions, exceptions, undefined names,
  out-of-range indexing) is embedded as `Option`-returning functions;
* the transcendental functions used by `softmax` / `log_softmax` are
  abstracted as parameters `pexp plog : ℚ → ℚ`, so every statement below
  holds for an arbitrary interpretation of them;
* neural components (the decoder network, the external BLEU scorer) are
  abstracted as function parameters: the claims below are about the
  surrounding orchestration code, which treats them as black boxes.

The file lists all definitions first, then all theorems.
-/

namespace VideoCaptioning

/-! ## Definitions -/

/-! ### LossChecker (utils.py, lines 14-31) -/

structure LossChecker where
  num_losses : ℕ
  losses : List (List ℚ)
deriving Repr, DecidableEq

/-- Embeds `LossChecker.__init__`: one empty value list per component. -/
def LossChecker.init (num_losses : ℕ) : LossChecker :=
  ⟨num_losses, List.replicate num_losses []⟩

/-- Embeds `LossChecker.update`: the `assert len(loss_vals) == self.num_losses`
becomes the `Option` guard; each value is appended to its component list. -/
def LossChecker.update (lc : LossChecker) (loss_vals : List ℚ) : Option LossChecker :=
  if loss_vals.length = lc.num_losses then
    some ⟨lc.num_losses, (lc.losses.zip loss_vals).map (fun p => p.1 ++ [p.2])⟩
  else
    none

/-- Embeds the Python trailing slice `loss[-last:]` used by `LossChecker.mean`:
`-0:` selects the whole list, `-last:` for `last > 0` selects the final
`last` entries (the whole list when `last` exceeds the length). -/
def lastSlice (l : List ℚ) (last : ℕ) : List ℚ :=
  if last = 0 then l else l.drop (l.length - last)

/-- Arithmetic mean of a list; `none` embeds Python's `ZeroDivisionError`
on an empty list. -/
def listMean (l : List ℚ) : Option ℚ :=
  if l.isEmpty then none else some (l.sum / l.length)

/-- Embeds `LossChecker.mean(last)`: per-component mean of the trailing
slice selected by `last`. -/
def LossChecker.mean (lc : LossChecker) (last : ℕ) : Option (List ℚ) :=
  lc.losses.mapM (fun l => listMean (lastSlice l last))

/-- The concrete checker of claim C7: `num_losses = 2`,
then `update(1,10)`, `update(2,20)`, `update(3,30)`. -/
def lossCheckerC7 : Option LossChecker := do
  let lc := LossChecker.init 2
  let lc ← lc.update [1, 10]
  let lc ← lc.update [2, 20]
  lc.update [3, 30]

/-! ### Tensor helpers

Tensors are nested lists: a matrix is a list of rows.  `transposeL` is
ordinary matrix transposition (used to apply a per-vector operation along
an inner axis, the way `F.softmax(x, dim=1)` normalises along the batch
axis of a (time, batch, vocab) tensor). -/

def consCol {α : Type} : List α → List (List α) → List (List α)
  | [], _ => []
  | x :: xs, [] => [x] :: consCol xs []
  | x :: xs, c :: cs => (x :: c) :: consCol xs cs

def transposeL {α : Type} : List (List α) → List (List α)
  | [] => []
  | r :: rs => consCol r (transposeL rs)

/-- Softmax of one vector, with the exponential abstracted as `pexp`. -/
def softmaxVec (pexp : ℚ → ℚ) (v : List ℚ) : List ℚ :=
  (v.map pexp).map (fun y => y / (v.map pexp).sum)

/-- Log-softmax of one vector, exponential and logarithm abstracted. -/
def logSoftmaxVec (pexp plog : ℚ → ℚ) (v : List ℚ) : List ℚ :=
  v.map (fun y => y - plog ((v.map pexp).sum))

/-- `F.softmax` along the middle axis of a (time, batch, vocab) tensor,
applied to one (batch, vocab) time slice: normalise each vocab column
along the batch axis. -/
def softmaxDim1 (pexp : ℚ → ℚ) (m : List (List ℚ)) : List (List ℚ)  :=
  transposeL ((transposeL m).map (softmaxVec pexp))

/-- `F.log_softmax` along the same axis convention as `softmaxDim1`. -/
def logSoftmaxDim1 (pexp plog : ℚ → ℚ) (m : List (List ℚ)) : List (List ℚ) :=
  transposeL ((transposeL m).map (logSoftmaxVec pexp plog))

/-- Elementwise sum along the time axis (`b.sum(dim=0)` on a (time, batch)
tensor). -/
def sumDim0 : List (List ℚ) → List ℚ
  | [] => []
  | r :: rs => rs.foldl (fun acc row => List.zipWith (· + ·) acc row) r

/-! ### entropy_loss (utils.py, lines 41-46) -/

/-- Embeds `entropy_loss(x, ignore_mask)`:
`b = F.softmax(x, dim=1) * F.log_softmax(x, dim=1)` (note: dim 1 is the
batch axis of the (time, batch, vocab) input), `b = b.sum(dim=2)`,
`b[ignore_mask] = 0` after the vocabulary-axis sum,
`b = -1.0 * b.sum(dim=0).mean()`.  The mean over an empty batch is `none`
(a degenerate tensor produces no rational value). -/
def entropy_loss (pexp plog : ℚ → ℚ) (x : List (List (List ℚ)))
    (ignore_mask : List (List Bool)) : Option ℚ :=
  let b1 := x.map (fun xt =>
    List.zipWith (List.zipWith (· * ·)) (softmaxDim1 pexp xt) (logSoftmaxDim1 pexp plog xt))
  let s := b1.map (fun bt => bt.map List.sum)
  let masked := List.zipWith (fun srow mrow =>
    List.zipWith (fun v m => if m then (0 : ℚ) else v) srow mrow) s ignore_mask
  (listMean (sumDim0 masked)).map (fun y => (-1 : ℚ) * y)

/-! ### Training losses (utils.py, lines 48-78) -/

/-- Embeds `F.nll_loss(input, target, ignore_index)` with the default mean
reduction: the negated mean of `input[i][target[i]]` over the positions
whose target is not the ignore index; `none` embeds the undefined result
when every position is ignored. -/
def nll_loss (input : List (List ℚ)) (target : List ℕ) (ignore_index : ℕ) : Option ℚ :=
  let kept := (input.zip target).filter (fun p => p.2 != ignore_index)
  if kept.isEmpty then none
  else some (-((kept.map (fun p => p.1.getD p.2 0)).sum) / kept.length)

/-- Modelled from the spec: `train` (utils.py line 61) calls
`losses.entropy_loss`, but the `losses` module is not among the repository
sources under src/ (only this caller is).  Per spec sections 4.6 and 4.7 the
referenced function is the entropy regularizer, whose algorithm is word for
word the `entropy_loss` of utils.py lines 41-46 embedded above, so the model
is that same function. -/
def losses_entropy_loss (pexp plog : ℚ → ℚ) (x : List (List (List ℚ)))
    (ignore_mask : List (List Bool)) : Option ℚ :=
  entropy_loss pexp plog x ignore_mask

/-- Embeds the loss accounting of one batch of `train` (utils.py lines
54-68).  The teacher-forced rollout `model(feats, captions, ratio)` is
abstracted as the given `output` tensor of shape
(max_caption_len + 2) x batch x vocab, time-major, exactly what
`CaptionGenerator.forward` returns; `captions` is the (time, batch)
ground-truth index tensor.  The function computes
`cross_entropy = F.nll_loss(output[1:].view(-1, n_vocabs), captions[1:].view(-1), ignore_index=PAD)`,
`ent = losses.entropy_loss(output[1:], ignore_mask=(captions[1:] == PAD))`,
`loss = cross_entropy + reg_lambda * ent`, and records the three values
into the LossChecker; backward/clip/step touch only learned parameters and
are not modelled. -/
def trainBatchLosses (pexp plog : ℚ → ℚ) (PAD_idx : ℕ) (reg_lambda : ℚ)
    (output : List (List (List ℚ))) (captions : List (List ℕ))
    (lc : LossChecker) : Option (LossChecker × ℚ × ℚ × ℚ) := do
  let out1 := output.drop 1
  let cap1 := captions.drop 1
  let cross_entropy_loss ← nll_loss out1.flatten cap1.flatten PAD_idx
  let ent ← losses_entropy_loss pexp plog out1
    (cap1.map (fun row => row.map (fun c => c == PAD_idx)))
  let loss := cross_entropy_loss + reg_lambda * ent
  let lc2 ← lc.update [loss, cross_entropy_loss, ent]
  return (lc2, loss, cross_entropy_loss, ent)

/-! ### Configuration serialization (utils.py, lines 207-234)

`cls_to_dict` reflects over a configuration class object; `dict_to_cls`
rebuilds a `Struct` attribute holder.  A Python object or dict is embedded
as the association list of its (name, value) entries.  `dir()` enumerates
attribute names in sorted order; the embedding keeps the entries in their
given order, which only permutes the traversal of an unordered attribute
map and affects no claim below. -/

inductive PyVal : Type where
  | base : ℤ → PyVal
  | str : String → PyVal
  | boolv : Bool → PyVal
  | cls : List (String × PyVal) → PyVal
  | dict : List (String × PyVal) → PyVal
  | struct : List (String × PyVal) → PyVal
deriving Repr

/-- Embeds `p.startswith("__")` on attribute names (the filter
`[p for p in dir(cls) if not p.startswith("__")]`). -/
def startsDunder (s : String) : Bool :=
  match s.data with
  | '_' :: '_' :: _ => true
  | _ => false

/-- Python truthiness of an embedded value (used for `v['was_class']`
in the `dict_to_cls` guard). -/
def truthy : PyVal → Bool
  | .base n => n != 0
  | .str s => s != ""
  | .boolv b => b
  | .cls _ => true
  | .dict l => !l.isEmpty
  | .struct _ => true

mutual
/-- Embeds the body of `cls_to_dict` on one attribute value: a class-valued
attribute (`inspect.isclass(v)`) is recursively converted and tagged with
`was_class = True` (appended last, as the dict insertion order has it);
any other value is stored unchanged. -/
def clsToDictVal : PyVal → PyVal
  | .cls attrs => .dict (clsToDictList attrs ++ [("was_class", .boolv true)])
  | v => v

/-- Embeds the property loop of `cls_to_dict`: skip double-underscore
names, convert each remaining attribute (the filter and the loop of the
source are fused into one traversal). -/
def clsToDictList : List (String × PyVal) → List (String × PyVal)
  | [] => []
  | (p, v) :: rest =>
    if startsDunder p then clsToDictList rest
    else (p, clsToDictVal v) :: clsToDictList rest
end

/-- Embeds `cls_to_dict(cls)`, taking the attribute list of the class. -/
def cls_to_dict (attrs : List (String × PyVal)) : List (String × PyVal) :=
  clsToDictList attrs

mutual
/-- Embeds the per-attribute conversion of `dict_to_cls`: a dict value
carrying a truthy `was_class` key is recursively rebuilt into a `Struct`
(whose attributes keep the `was_class` entry: the source never removes
it); anything else is kept as is. -/
def dictToClsVal : PyVal → PyVal
  | .dict attrs =>
    if (match attrs.lookup "was_class" with
        | some w => truthy w
        | none => false) then .struct (dictToClsList attrs) else .dict attrs
  | v => v

/-- Embeds the property loop of `dict_to_cls` over the attributes of
`Struct(**d)`: double-underscore names are left untouched, all others are
passed through the `was_class` conversion and re-stored via `setattr`. -/
def dictToClsList : List (String × PyVal) → List (String × PyVal)
  | [] => []
  | (p, v) :: rest =>
    if startsDunder p then (p, v) :: dictToClsList rest
    else (p, dictToClsVal v) :: dictToClsList rest
end

/-- Embeds `dict_to_cls(d)`: the attribute list of the rebuilt `Struct`. -/
def dict_to_cls (d : List (String × PyVal)) : List (String × PyVal) :=
  dictToClsList d

mutual
/-- A configuration value in the sense of claim C3: a plain value or a
nested class object whose attributes are again such values, with no
attribute named `was_class` (the internal marker of the converter). -/
def isConfigVal : PyVal → Bool
  | .base _ => true
  | .str _ => true
  | .boolv _ => true
  | .cls attrs => isConfigList attrs
  | .dict _ => false
  | .struct _ => false

def isConfigList : List (String × PyVal) → Bool
  | [] => true
  | (p, v) :: rest => (p != "was_class") && isConfigVal v && isConfigList rest
end

mutual
/-- The value actually produced by the round trip
`dict_to_cls(cls_to_dict(x))` on a configuration value, written by direct
recursion on the input: a plain value is preserved, and a nested class
object becomes a `Struct` holding the recursively rebuilt public
attributes followed by the leaked `was_class = True` marker attribute. -/
def expectedRTVal : PyVal → PyVal
  | .cls attrs => .struct (expectedRTList attrs ++ [("was_class", .boolv true)])
  | v => v

def expectedRTList : List (String × PyVal) → List (String × PyVal)
  | [] => []
  | (p, v) :: rest =>
    if startsDunder p then expectedRTList rest
    else (p, expectedRTVal v) :: expectedRTList rest
end

/-! ### Captioning and scoring pipeline (utils.py, lines 105-204, 255-268)

The model and the external BLEU scorer are abstracted as function
parameters.  `parse_batch` moves tensors to the device and concatenates
the per-stream features along the feature axis; both are identity at this
level of abstraction, so a batch is embedded already parsed: video ids,
one opaque feature value per video, and the (time, batch) caption
tensor. -/

structure PBatch (F : Type) where
  vids : List String
  feats : List F
  captions : List (List ℕ)
deriving Repr

/-- Embeds `idxs_to_sentence(idxs, idx2word, EOS_idx)` (utils.py lines
195-204): skip the first index, emit words until (and excluding) the
first occurrence of the end index, join with single spaces. -/
def idxs_to_sentence (idxs : List ℕ) (idx2word : ℕ → String) (EOS_idx : ℕ) : String :=
  String.intercalate " " (((idxs.drop 1).takeWhile (fun i => i != EOS_idx)).map idx2word)

/-- Embeds the deduplication loop of `build_onlyonce_iter`: iterate all
(vid, feat) pairs in order and keep the first-seen feature per video
id. -/
def dedupFirstSeen {F : Type} (pairs : List (String × F)) : List (String × F) :=
  pairs.foldl (fun acc p => if (acc.lookup p.1).isSome then acc else acc ++ [p]) []

/-- Embeds `build_onlyonce_iter` (utils.py lines 106-121).  After the
deduplication loop, the source runs
`vids = onlyonce_dataset.keys(); feats = onlyonce_dataset.values()` and
slices `vids[:batch_size]` / `feats[:batch_size]` in a loop.  In Python 3
`dict_keys` / `dict_values` views support `len()` but are not
subscriptable, so the first loop iteration raises
`TypeError: 'dict_keys' object is not subscriptable` whenever the
deduplicated dict is non-empty (embedded as `none`); an empty dict skips
the loop and yields an empty iterator list. -/
def build_onlyonce_iter {F : Type} (batches : List (PBatch F)) :
    Option (List (List String × List F)) :=
  let onlyonce := dedupFirstSeen (batches.flatMap (fun b => b.vids.zip b.feats))
  if onlyonce.isEmpty then some [] else none

/-- Embeds `get_predicted_captions(data_iter, model, vocab, beam_width,
beam_alpha)` (utils.py lines 105-133): build the deduplicated chunk
iterator, look up `<EOS>`, then for every chunk call
`model.describe(feats, beam_width, beam_alpha)` (abstracted as the
parameter `describe`), convert each index sequence to a sentence and
collect the video-to-prediction map. -/
def get_predicted_captions {F : Type}
    (describe : List F → ℕ → ℚ → List (List ℕ))
    (batches : List (PBatch F))
    (word2idx : List (String × ℕ)) (idx2word : ℕ → String)
    (beam_width : ℕ) (beam_alpha : ℚ) : Option (List (String × String)) := do
  let onlyonce_iter ← build_onlyonce_iter batches
  let EOS_idx ← word2idx.lookup "<EOS>"
  let chunkResults := onlyonce_iter.map (fun chunk =>
    chunk.1.zip ((describe chunk.2 beam_width beam_alpha).map
      (fun caption => idxs_to_sentence caption idx2word EOS_idx)))
  return chunkResults.flatten

/-- One `vid2GTs[vid].append(caption)` step of `get_groundtruth_captions`:
append to the existing reference list of the id, or start a new entry. -/
def appendGT (acc : List (String × List String)) (vid : String) (sent : String) :
    List (String × List String) :=
  if (acc.lookup vid).isSome then
    acc.map (fun q => if q.1 == vid then (q.1, q.2 ++ [sent]) else q)
  else
    acc ++ [(vid, [sent])]

/-- Embeds `get_groundtruth_captions(data_iter, vocab)` (utils.py lines
136-147): for every batch transpose the captions to batch-major and
accumulate one reference sentence per (vid, caption) pair. -/
def get_groundtruth_captions {F : Type} (batches : List (PBatch F))
    (word2idx : List (String × ℕ)) (idx2word : ℕ → String) :
    Option (List (String × List String)) := do
  let EOS_idx ← word2idx.lookup "<EOS>"
  return batches.foldl (fun acc b =>
    (b.vids.zip (transposeL b.captions)).foldl (fun acc2 p =>
      appendGT acc2 p.1 (idxs_to_sentence p.2 idx2word EOS_idx)) acc) []

/-- Embeds `score(vid2pred, vid2GTs)` (utils.py lines 150-157): the
`assert set(vid2pred.keys()) == set(vid2GTs.keys())` is the `Option`
guard; then video ids are remapped to dense integer positions and the
external BLEU scorer `calc_scores` (treated as an opaque dependency, spec
section 6) is applied, abstracted as the parameter `calc`. -/
def score (calc_scores : List (ℕ × List String) → List (ℕ × List String) → List (String × ℚ))
    (vid2pred : List (String × String)) (vid2GTs : List (String × List String)) :
    Option (List (String × ℚ)) :=
  if (vid2pred.map Prod.fst).toFinset = (vid2GTs.map Prod.fst).toFinset then
    let vid2idx := (vid2pred.map Prod.fst).enum.map (fun p => (p.2, p.1))
    let refs := vid2GTs.map (fun p => ((vid2idx.lookup p.1).getD 0, p.2))
    let hypos := vid2pred.map (fun p => ((vid2idx.lookup p.1).getD 0, [p.2]))
    some (calc_scores refs hypos)
  else none

/-- Embeds `save_result(vid2pred, vid2GTs, save_fpath)` (utils.py lines
255-268) as the list of lines written: the same key-set assertion guards
the call, then one `vid, pred, GT1 / GT2 / ...` line per video id in
prediction-map order (directory creation and the file write itself are
I/O and carry no further data flow). -/
def save_result (vid2pred : List (String × String))
    (vid2GTs : List (String × List String)) : Option (List String) :=
  if (vid2pred.map Prod.fst).toFinset = (vid2GTs.map Prod.fst).toFinset then
    some (vid2pred.map (fun p =>
      String.intercalate ", "
        [p.1, p.2, String.intercalate " / " ((vid2GTs.lookup p.1).getD [])]))
  else none

/-- Embeds `evaluate(data_iter, model, vocab, beam_width, beam_alpha)`
(utils.py lines 182-186).  Note the source calls
`get_predicted_captions(..., beam_width=5, beam_alpha=0.)` with literal
arguments: the `beam_width` / `beam_alpha` parameters of `evaluate` are
accepted but never used. -/
def evaluate {F : Type}
    (describe : List F → ℕ → ℚ → List (List ℕ))
    (calc_scores : List (ℕ × List String) → List (ℕ × List String) → List (String × ℚ))
    (batches : List (PBatch F))
    (word2idx : List (String × ℕ)) (idx2word : ℕ → String)
    (beam_width : ℕ) (beam_alpha : ℚ) : Option (List (String × ℚ)) := do
  let vid2pred ← get_predicted_captions describe batches word2idx idx2word 5 0
  let vid2GTs ← get_groundtruth_captions batches word2idx idx2word
  score calc_scores vid2pred vid2GTs

/-! ### Decoder construction (models.py, lines 40-63) -/

/-- Attribute state of a `Decoder` instance during `__init__`: `none`
means the attribute has never been assigned (reading it raises
`AttributeError`).  The module-valued attributes record only the
construction arguments (shapes/flags) of the contained sub-modules, which
is all claim C2 speaks about. -/
structure DecoderAttrs where
  rnn_type : Option String
  num_layers : Option ℕ
  num_directions : Option ℕ
  feat_size : Option ℕ
  feat_len : Option ℕ
  embedding_size : Option ℕ
  hidden_size : Option ℕ
  attn_size : Option ℕ
  output_size : Option ℕ
  rnn_dropout_p : Option ℚ
  embedding : Option (ℕ × ℕ)
  attention : Option (ℕ × ℕ × ℕ)
  rnn : Option (String × ℕ × ℕ × ℕ × ℚ × Bool)
  out : Option (ℕ × ℕ)
deriving Repr

/-- Embeds `Decoder.__init__` (models.py lines 41-63), statement by
statement.  The method assigns only `hidden_size`, `attn_size`,
`output_size` and `rnn_dropout_p` (lines 43-46); it never assigns
`rnn_type`, `num_layers`, `num_directions`, `feat_size`, `feat_len` or
`embedding_size` from its arguments, and it never calls
`super().__init__()`.  Line 48 then evaluates
`nn.Embedding(self.output_size, self.embedding_size)`, whose second
argument reads the never-assigned `self.embedding_size`: `AttributeError`
(`none`).  The remaining statements (kept for completeness) would read
further unassigned attributes. -/
def Decoder.init (rnn_type : String)
    (num_layers num_directions feat_size feat_len embedding_size
      hidden_size attn_size output_size : ℕ) (rnn_dropout : ℚ) :
    Option DecoderAttrs := do
  -- lines 43-46
  let s : DecoderAttrs :=
    ⟨none, none, none, none, none, none,
      some hidden_size, some attn_size, some output_size, some rnn_dropout,
      none, none, none, none⟩
  -- line 48: nn.Embedding(self.output_size, self.embedding_size)
  let os ← s.output_size
  let es ← s.embedding_size
  let s : DecoderAttrs :=
    ⟨s.rnn_type, s.num_layers, s.num_directions, s.feat_size, s.feat_len,
      s.embedding_size, s.hidden_size, s.attn_size, s.output_size,
      s.rnn_dropout_p, some (os, es), s.attention, s.rnn, s.out⟩
  -- lines 50-53: Attention(self.num_directions * self.hidden_size,
  --                        self.feat_size, self.attn_size)
  let nd ← s.num_directions
  let hs ← s.hidden_size
  let fs ← s.feat_size
  let bn ← s.attn_size
  let s : DecoderAttrs :=
    ⟨s.rnn_type, s.num_layers, s.num_directions, s.feat_size, s.feat_len,
      s.embedding_size, s.hidden_size, s.attn_size, s.output_size,
      s.rnn_dropout_p, s.embedding, some (nd * hs, fs, bn), s.rnn, s.out⟩
  -- lines 55-61: RNN selection on self.rnn_type and construction
  let rt ← s.rnn_type
  let es2 ← s.embedding_size
  let fs2 ← s.feat_size
  let hs2 ← s.hidden_size
  let nl ← s.num_layers
  let dp ← s.rnn_dropout_p
  let nd2 ← s.num_directions
  let s : DecoderAttrs :=
    ⟨s.rnn_type, s.num_layers, s.num_directions, s.feat_size, s.feat_len,
      s.embedding_size, s.hidden_size, s.attn_size, s.output_size,
      s.rnn_dropout_p, s.embedding, s.attention,
      some (if rt == "LSTM" then "LSTM" else "GRU", es2 + fs2, hs2, nl, dp,
        nd2 == 2), s.out⟩
  -- line 63: nn.Linear(self.num_directions * self.hidden_size, self.output_size)
  let nd3 ← s.num_directions
  let hs3 ← s.hidden_size
  let os3 ← s.output_size
  return ⟨s.rnn_type, s.num_layers, s.num_directions, s.feat_size, s.feat_len,
    s.embedding_size, s.hidden_size, s.attn_size, s.output_size,
    s.rnn_dropout_p, s.embedding, s.attention, s.rnn, some (nd3 * hs3, os3)⟩

/-! ### Beam search (models.py, lines 94-221) -/

/-- Stable insertion of index `i` into a score-descending index list:
`i` goes before the first index whose score is strictly smaller, and
after every index with greater-or-equal score. -/
def insertDesc (xs : List ℚ) (i : ℕ) : List ℕ → List ℕ
  | [] => [i]
  | j :: rest =>
    if xs.getD j 0 < xs.getD i 0 then i :: j :: rest else j :: insertDesc xs i rest

/-- Embeds `row.argsort(descending=True)` on one score row, as a stable
sort: ties keep ascending index order, the behaviour spec section 9
assigns to the top-k selection. -/
def argsortDesc (xs : List ℚ) : List ℕ :=
  (List.range xs.length).foldl (fun acc i => insertDesc xs i acc) []

/-- `i` is the position a stable descending argsort puts first on row
`xs`: an in-range maximiser that strictly beats every earlier position
(the first argmax of the row). -/
def IsFirstArgmax (xs : List ℚ) (i : ℕ) : Prop :=
  i < xs.length ∧ (∀ v < xs.length, xs.getD v 0 ≤ xs.getD i 0) ∧
    ∀ v < i, xs.getD v 0 < xs.getD i 0

/-- `torch.cat(slot_rows, dim=1)`: slot-indexed (slots, batch, vocab)
score blocks become one `slots * vocab` candidate row per batch
element. -/
def catDim1 (xs : List (List (List ℚ))) : List (List ℚ) :=
  (transposeL xs).map List.flatten

/-- Beam-search working state (models.py lines 144-150): `input_list`,
`hidden_list` and `cum_prob_list` are slot-major, one row over the batch
per beam slot — a hidden tensor of shape (layers x directions, batch,
hidden) is carried as its list of per-batch-element slices, which is
exactly how the source reassembles hidden states via
`beam_hidden_list[bi][:, i, :]` followed by `torch.stack(..., dim=1)`;
`output_list` is batch-major, one token path per (batch element, slot). -/
structure BeamState (H : Type) where
  input_list : List (List ℕ)
  hidden_list : List (List H)
  cum_prob_list : List (List ℚ)
  output_list : List (List (List ℕ))

/-- The body of the inner slot loop
`for i, (input, hidden, cum_prob) in enumerate(zip(input_list, hidden_list, cum_prob_list))`
(models.py lines 161-183) for one enumerated slot `q`: decode every batch
element, zero the log-probability rows of already-completed captions
(those containing `<EOS>`), add the slot's cumulative log-probability,
and divide by the length-normalisation factor
`((5 + caption_lens) ** alpha) / (6 ** alpha)` (embedded with integer
exponent as a `zpow`); returns the unnormalised scores, the normalised
scores and the next hidden slices.

The decoder is abstracted as `dec batch_index input_token hidden_slice`:
`Decoder.forward` acts independently on each batch element (embedding
lookup, attention over that element's features, the RNN step, the output
linear layer and the log-softmax are all elementwise along the batch
axis) and the feature tensor is fixed throughout one call, so one time
step of the batched decoder is the per-element map of `dec`. -/
def slotCompute {H : Type} (dec : ℕ → ℕ → H → (List ℚ × H))
    (alpha : ℤ) (EOS_idx : ℕ) (t : ℕ) (output_list : List (List (List ℕ)))
    (q : ℕ × (List ℕ × (List H × List ℚ))) :
    List (List ℚ) × List (List ℚ) × List H :=
  let i := q.1
  let input := q.2.1
  let hidden := q.2.2.1
  let cum_prob := q.2.2.2
  let dh := (input.zip hidden).enum.map (fun w => dec w.1 w.2.1 w.2.2)
  let output0 := dh.map Prod.fst
  let next_hidden := dh.map Prod.snd
  let caption_list := output_list.map (fun row => row.getD i [])
  let EOS_mask := caption_list.map
    (fun caption => if EOS_idx ∈ caption then (0 : ℚ) else 1)
  let output1 := List.zipWith (fun m o => o.map (fun y => m * y)) EOS_mask output0
  let output2 := List.zipWith (fun c o => o.map (fun y => y + c)) cum_prob output1
  let caption_lens := caption_list.map (fun caption =>
    if EOS_idx ∈ caption then caption.indexOf EOS_idx + 1 else t + 1)
  let normalizing := caption_lens.map
    (fun (L : ℕ) => ((5 + (L : ℚ)) ^ alpha) / ((6 : ℚ) ^ alpha))
  let normalized := List.zipWith (fun f o => o.map (fun y => y / f))
    normalizing output2
  (output2, normalized, next_hidden)

/-- The reassembly of the next beam state (models.py lines 190-217) once
the top-`width` flat candidate indices per batch element are known:
each flat index splits into source beam `bi = flat / vocab_size` and
token `oi = flat % vocab_size`; new inputs, gathered hidden slices, new
cumulative log-probabilities (read from the unnormalised concatenated
scores at `vocab_size * bi + oi`, line 205) and extended paths. -/
def beamSelect {H : Type} [Inhabited H] (vocab_size width : ℕ)
    (output_list : List (List (List ℕ))) (hidden_slots : List (List H))
    (beam_output_list : List (List ℚ)) (beam_topk : List (List ℕ)) :
    BeamState H :=
  let nb := beam_topk.length
  let flatAt := fun (j k : ℕ) => (beam_topk.getD j []).getD k 0
  ⟨(List.range width).map (fun k => (List.range nb).map
      (fun j => flatAt j k % vocab_size)),
   (List.range width).map (fun k => (List.range nb).map
      (fun j => (hidden_slots.getD (flatAt j k / vocab_size) []).getD j default)),
   (List.range width).map (fun k => (List.range nb).map
      (fun j => (beam_output_list.getD j []).getD
        (vocab_size * (flatAt j k / vocab_size) + flatAt j k % vocab_size) 0)),
   (List.range nb).map (fun j => (List.range width).map
      (fun k => ((output_list.getD j []).getD (flatAt j k / vocab_size) []) ++
        [flatAt j k % vocab_size]))⟩

/-- Embeds one iteration of the `for t in range(self.max_caption_len + 1)`
loop of `CaptionGenerator.beam_search` (models.py lines 151-217).
The `assert len(input_list) == len(hidden_list) == len(cum_prob_list)`
(line 160) is the first guard.  After the per-slot score rows are
concatenated (`torch.cat(..., dim=1)`) and argsorted, the source reads
column `i` of the `[:, :width]` slice for every `i in range(width)`
(lines 190-206); when `width` exceeds the candidate count
`slots * vocab_size` the slice is shorter than `width` and that column
read raises `IndexError` — the second guard. -/
def beamStep {H : Type} [Inhabited H] (dec : ℕ → ℕ → H → (List ℚ × H))
    (vocab_size width : ℕ) (alpha : ℤ) (EOS_idx : ℕ) (t : ℕ)
    (s : BeamState H) : Option (BeamState H) :=
  if s.input_list.length = s.hidden_list.length ∧
      s.hidden_list.length = s.cum_prob_list.length then
    let slotData := (s.input_list.zip (s.hidden_list.zip s.cum_prob_list)).enum.map
      (slotCompute dec alpha EOS_idx t s.output_list)
    let beam_output_list := catDim1 (slotData.map (fun d => d.1))
    let normalized_beam_output_list := catDim1 (slotData.map (fun d => d.2.1))
    let beam_topk := normalized_beam_output_list.map
      (fun row => (argsortDesc row).take width)
    if beam_topk.any (fun row => decide (row.length < width)) then none
    else
      some (beamSelect vocab_size width s.output_list
        (slotData.map (fun d => d.2.2)) beam_output_list beam_topk)
  else none

/-- The `for t in range(self.max_caption_len + 1)` loop of `beam_search`:
`steps` iterations remain, the current step index is `t`. -/
def beamRun {H : Type} [Inhabited H] (dec : ℕ → ℕ → H → (List ℚ × H))
    (vocab_size width : ℕ) (alpha : ℤ) (EOS_idx : ℕ) :
    ℕ → ℕ → BeamState H → Option (BeamState H)
  | 0, _, st => some st
  | steps + 1, t, st =>
    match beamStep dec vocab_size width alpha EOS_idx t st with
    | none => none
    | some st2 => beamRun dec vocab_size width alpha EOS_idx steps (t + 1) st2

/-- Embeds `CaptionGenerator.beam_search` (models.py lines 140-221): one
beam slot per batch element seeded with `<SOS>`, the zero recurrent state
(abstracted as `h0`, the `get_rnn_init_hidden` result sliced per batch
element) and cumulative log-probability `log(1) = 0`; then
`max_caption_len + 1` steps; finally `[SOS_idx] + o[0]` per batch element
(for `width = 0` the source would raise on `o[0]`; every claim below has
`width >= 1`). -/
def beam_search {H : Type} [Inhabited H] (dec : ℕ → ℕ → H → (List ℚ × H))
    (batch_size vocab_size width : ℕ) (alpha : ℤ) (SOS_idx EOS_idx : ℕ)
    (max_caption_len : ℕ) (h0 : H) : Option (List (List ℕ)) := do
  let init : BeamState H :=
    ⟨[List.replicate batch_size SOS_idx],
     [List.replicate batch_size h0],
     [List.replicate batch_size (0 : ℚ)],
     List.replicate batch_size [[]]⟩
  let final ← beamRun dec vocab_size width alpha EOS_idx (max_caption_len + 1) 0 init
  return final.output_list.map (fun o => SOS_idx :: o.getD 0 [])

/-- Embeds `CaptionGenerator.describe` (models.py lines 133-138): read the
batch size and vocabulary size and delegate to `beam_search`. -/
def describe {H : Type} [Inhabited H] (dec : ℕ → ℕ → H → (List ℚ × H))
    (batch_size vocab_size : ℕ) (max_caption_len : ℕ) (h0 : H)
    (beam_width : ℕ) (beam_alpha : ℤ) (SOS_idx EOS_idx : ℕ) :
    Option (List (List ℕ)) :=
  beam_search dec batch_size vocab_size beam_width beam_alpha SOS_idx EOS_idx
    max_caption_len h0

/-- The decoder abstraction is well-formed for vocabulary size `V` when
every step emits one score per vocabulary entry. -/
def DecWF {H : Type} (dec : ℕ → ℕ → H → (List ℚ × H)) (V : ℕ) : Prop :=
  ∀ j tok h, (dec j tok h).1.length = V

/-- Shape invariant of the beam state: `slots` beam slots, rows of length
`batch`, `batch` path rows of `slots` paths of length `plen`. -/
def StateWF {H : Type} (s : BeamState H) (slots batch plen : ℕ) : Prop :=
  s.input_list.length = slots ∧ s.hidden_list.length = slots ∧
  s.cum_prob_list.length = slots ∧
  (∀ r ∈ s.input_list, r.length = batch) ∧
  (∀ r ∈ s.hidden_list, r.length = batch) ∧
  (∀ r ∈ s.cum_prob_list, r.length = batch) ∧
  s.output_list.length = batch ∧
  (∀ row ∈ s.output_list, row.length = slots ∧ ∀ p ∈ row, p.length = plen)

/-- Concrete decoder of the C5 counterexample (vocabulary `{0, 1, 2}`,
`<SOS> = 1`, `<EOS> = 2`): on input `<SOS>` the log-probability row is
`[0, -1, 5]` (argmax `2 = <EOS>`), on any other input it is `[0, 5, 1]`
(argmax `1`). -/
def dec0 : ℕ → ℕ → Unit → (List ℚ × Unit) :=
  fun _ tok _ => (if tok == 1 then [0, -1, 5] else [0, 5, 1], ())

/-! ## Theorems -/

/-! ### List lemmas -/

theorem forall_mem_zipWith {α β γ : Type} {f : α → β → γ} {P : γ → Prop}
    (l1 : List α) (l2 : List β)
    (h : ∀ a ∈ l1, ∀ b ∈ l2, P (f a b)) :
    ∀ c ∈ List.zipWith f l1 l2, P c := by
  induction l1 generalizing l2 with
  | nil => simp
  | cons a l ih =>
    cases l2 with
    | nil => simp
    | cons b l2 =>
      intro c hc
      simp only [List.zipWith_cons_cons, List.mem_cons] at hc
      rcases hc with rfl | hc
      · exact h a (by simp) b (by simp)
      · exact ih l2 (fun a2 ha2 b2 hb2 => h a2 (by simp [ha2]) b2 (by simp [hb2])) c hc

theorem length_consCol {α : Type} (r : List α) (m : List (List α)) :
    (consCol r m).length = r.length := by
  induction r generalizing m with
  | nil => cases m <;> simp [consCol]
  | cons x xs ih => cases m <;> simp [consCol, ih]

theorem length_softmaxVec (pexp : ℚ → ℚ) (v : List ℚ) :
    (softmaxVec pexp v).length = v.length := by
  simp [softmaxVec]

theorem length_logSoftmaxVec (pexp plog : ℚ → ℚ) (v : List ℚ) :
    (logSoftmaxVec pexp plog v).length = v.length := by
  simp [logSoftmaxVec]

theorem transpose_map_length_pos {f : List ℚ → List ℚ}
    (hf : ∀ v, (f v).length = v.length) (m : List (List ℚ))
    (hm : 1 ≤ m.length) (hr : ∀ r ∈ m, 1 ≤ r.length) :
    1 ≤ (transposeL ((transposeL m).map f)).length := by
  cases m with
  | nil => simp at hm
  | cons r rs =>
    have hr1 : 1 ≤ r.length := hr r (by simp)
    cases r with
    | nil => simp at hr1
    | cons x xs =>
      show 1 ≤ (transposeL ((consCol (x :: xs) (transposeL rs)).map f)).length
      cases htl : transposeL rs with
      | nil =>
        simp only [consCol, List.map_cons, transposeL, length_consCol, hf]
        simp
      | cons c cs =>
        simp only [consCol, List.map_cons, transposeL, length_consCol, hf]
        simp

theorem softmaxDim1_length_pos (pexp : ℚ → ℚ) (m : List (List ℚ))
    (hm : 1 ≤ m.length) (hr : ∀ r ∈ m, 1 ≤ r.length) :
    1 ≤ (softmaxDim1 pexp m).length :=
  transpose_map_length_pos (length_softmaxVec pexp) m hm hr

theorem logSoftmaxDim1_length_pos (pexp plog : ℚ → ℚ) (m : List (List ℚ))
    (hm : 1 ≤ m.length) (hr : ∀ r ∈ m, 1 ≤ r.length) :
    1 ≤ (logSoftmaxDim1 pexp plog m).length :=
  transpose_map_length_pos (length_logSoftmaxVec pexp plog) m hm hr

theorem sumDim0_all_zero_aux (rs : List (List ℚ)) (acc : List ℚ)
    (hacc : ∀ v ∈ acc, v = 0) (h : ∀ r ∈ rs, ∀ v ∈ r, v = 0) :
    ∀ v ∈ rs.foldl (fun acc row => List.zipWith (· + ·) acc row) acc, v = 0 := by
  induction rs generalizing acc with
  | nil => simpa using hacc
  | cons r rs ih =>
    simp only [List.foldl_cons]
    refine ih _ ?_ (fun r2 hr2 => h r2 (by simp [hr2]))
    refine forall_mem_zipWith acc r (fun a ha b hb => ?_)
    rw [hacc a ha, h r (by simp) b hb, add_zero]

theorem sumDim0_all_zero (rows : List (List ℚ))
    (h : ∀ r ∈ rows, ∀ v ∈ r, v = 0) :
    ∀ v ∈ sumDim0 rows, v = 0 := by
  cases rows with
  | nil => simp [sumDim0]
  | cons r rs =>
    exact sumDim0_all_zero_aux rs r (h r (by simp))
      (fun r2 hr2 => h r2 (by simp [hr2]))

theorem sumDim0_length_pos_aux (rs : List (List ℚ)) (acc : List ℚ)
    (hacc : 1 ≤ acc.length) (h : ∀ r ∈ rs, 1 ≤ r.length) :
    1 ≤ (rs.foldl (fun acc row => List.zipWith (· + ·) acc row) acc).length := by
  induction rs generalizing acc with
  | nil => simpa using hacc
  | cons r rs ih =>
    simp only [List.foldl_cons]
    refine ih _ ?_ (fun r2 hr2 => h r2 (by simp [hr2]))
    have := h r (by simp)
    simp only [List.length_zipWith]
    omega

theorem sumDim0_length_pos (rows : List (List ℚ))
    (hrows : 1 ≤ rows.length) (h : ∀ r ∈ rows, 1 ≤ r.length) :
    1 ≤ (sumDim0 rows).length := by
  cases rows with
  | nil => simp at hrows
  | cons r rs =>
    exact sumDim0_length_pos_aux rs r (h r (by simp))
      (fun r2 hr2 => h r2 (by simp [hr2]))

theorem listMean_zero (l : List ℚ) (hlen : 1 ≤ l.length)
    (h : ∀ v ∈ l, v = 0) : listMean l = some 0 := by
  have hsum : l.sum = 0 := List.sum_eq_zero h
  have hne : l.isEmpty = false := by
    cases l with
    | nil => simp at hlen
    | cons a l => simp
  simp [listMean, hne, hsum]

/-! ### Claim C7 -/

/-- C7: for a `LossChecker` with `num_losses = 2`, after `update(1,10)`,
`update(2,20)`, `update(3,30)`, `mean(last=2)` returns `[2.5, 25.0]` and
`mean()` (default `last=0`) returns `[2.0, 20.0]`; in general `last = 0`
selects the entire recorded list, and `last > 0` selects exactly the most
recent `last` entries of each component (a suffix of length
`min last length`). -/
theorem C7_losschecker_mean :
    (∃ lc, lossCheckerC7 = some lc ∧
      lc.mean 2 = some [5/2, 25] ∧ lc.mean 0 = some [2, 20]) ∧
    (∀ (l : List ℚ), lastSlice l 0 = l) ∧
    (∀ (l : List ℚ) (last : ℕ), 0 < last →
      lastSlice l last <:+ l ∧ (lastSlice l last).length = min last l.length) := by
  refine ⟨⟨⟨2, [[1, 2, 3], [10, 20, 30]]⟩, by decide,
    by norm_num [LossChecker.mean, listMean, lastSlice, List.mapM, List.mapM.loop],
    by norm_num [LossChecker.mean, listMean, lastSlice, List.mapM, List.mapM.loop]⟩, ?_, ?_⟩
  · intro l
    simp [lastSlice]
  · intro l last hlast
    have hne : ¬ last = 0 := Nat.pos_iff_ne_zero.mp hlast
    constructor
    · simpa [lastSlice, hne] using List.drop_suffix (l.length - last) l
    · simp only [lastSlice, hne, if_false, List.length_drop]
      omega

/-- Witness for C7: the general trailing-slice part applied at a concrete
list and window. -/
theorem C7_losschecker_mean_witness :
    lastSlice [1, 2, 3] 2 <:+ [1, 2, 3] ∧
      (lastSlice [1, 2, 3] 2).length = min 2 ([1, 2, 3] : List ℚ).length :=
  C7_losschecker_mean.2.2 [1, 2, 3] 2 (by decide)

/-! ### Claim C8 -/

/-- C8: when every (time, batch) position is flagged by the ignore mask,
`entropy_loss` returns exactly 0, for every interpretation of the
exponential/logarithm and every logits tensor of non-degenerate shape
(at least one time step, one batch element per step, one vocabulary entry
per position, and a non-empty all-true mask row per time step): the
masking happens after the vocabulary-axis sum, so a fully masked input
contributes nothing to the time-sum and batch-mean. -/
theorem C8_entropy_loss_all_masked (pexp plog : ℚ → ℚ)
    (x : List (List (List ℚ))) (mask : List (List Bool))
    (hT : 1 ≤ x.length) (hM : 1 ≤ mask.length)
    (hB : ∀ xt ∈ x, 1 ≤ xt.length)
    (hV : ∀ xt ∈ x, ∀ row ∈ xt, 1 ≤ row.length)
    (hMrow : ∀ mrow ∈ mask, 1 ≤ mrow.length)
    (htrue : ∀ mrow ∈ mask, ∀ b ∈ mrow, b = true) :
    entropy_loss pexp plog x mask = some 0 := by
  unfold entropy_loss
  set b1 := x.map (fun xt =>
    List.zipWith (List.zipWith (· * ·)) (softmaxDim1 pexp xt)
      (logSoftmaxDim1 pexp plog xt)) with hb1
  set s := b1.map (fun bt => bt.map List.sum) with hs
  set masked := List.zipWith (fun srow mrow =>
    List.zipWith (fun v m => if m then (0 : ℚ) else v) srow mrow) s mask with hmasked
  have hzero : ∀ r ∈ masked, ∀ v ∈ r, v = 0 := by
    refine forall_mem_zipWith s mask (fun srow _ mrow hmrow => ?_)
    refine forall_mem_zipWith srow mrow (fun a _ b hb => ?_)
    rw [htrue mrow hmrow b hb]
    simp
  have hslen : ∀ srow ∈ s, 1 ≤ srow.length := by
    intro srow hsrow
    rw [hs] at hsrow
    obtain ⟨bt, hbt, rfl⟩ := List.mem_map.mp hsrow
    rw [hb1] at hbt
    obtain ⟨xt, hxt, rfl⟩ := List.mem_map.mp hbt
    have h1 := softmaxDim1_length_pos pexp xt (hB xt hxt) (hV xt hxt)
    have h2 := logSoftmaxDim1_length_pos pexp plog xt (hB xt hxt) (hV xt hxt)
    simp only [List.length_map, List.length_zipWith]
    omega
  have hmlen : ∀ r ∈ masked, 1 ≤ r.length := by
    refine forall_mem_zipWith s mask (fun srow hsrow mrow hmrow => ?_)
    have := hslen srow hsrow
    have := hMrow mrow hmrow
    simp only [List.length_zipWith]
    omega
  have hmaskedlen : 1 ≤ masked.length := by
    rw [hmasked]
    have : s.length = x.length := by simp [hs, hb1]
    simp only [List.length_zipWith]
    omega
  have hmean := listMean_zero (sumDim0 masked) (sumDim0_length_pos masked hmaskedlen hmlen)
    (sumDim0_all_zero masked hzero)
  show Option.map (fun y => (-1 : ℚ) * y) (listMean (sumDim0 masked)) = some 0
  rw [hmean]
  simp

/-- Witness for C8: a concrete fully-masked 1 x 1 x 1 tensor. -/
theorem C8_entropy_loss_all_masked_witness :
    entropy_loss (fun q => q) (fun q => q) [[[3]]] [[true]] = some 0 :=
  C8_entropy_loss_all_masked (fun q => q) (fun q => q) [[[3]]] [[true]]
    (by decide) (by decide) (by decide) (by decide) (by decide) (by decide)

/-! ### Claim C1 -/

/-- C1: for every training batch, once the cross-entropy and entropy terms
are defined, the recorded per-batch total equals
`cross_entropy + reg_lambda * entropy`, where the entropy term is
`losses.entropy_loss` applied to output time steps 1 onward with the
`<PAD>` positions of `captions[1:]` as ignore mask, and exactly three
values (total, cross-entropy, entropy) are recorded into the 3-component
LossChecker: each component list grows by exactly its one value. -/
theorem C1_train_batch_records_losses (pexp plog : ℚ → ℚ) (PAD_idx : ℕ)
    (reg_lambda : ℚ) (output : List (List (List ℚ))) (captions : List (List ℕ))
    (l0 l1 l2 : List ℚ) (ce ent : ℚ)
    (hce : nll_loss (output.drop 1).flatten (captions.drop 1).flatten PAD_idx = some ce)
    (hent : losses_entropy_loss pexp plog (output.drop 1)
      ((captions.drop 1).map (fun row => row.map (fun c => c == PAD_idx))) = some ent) :
    trainBatchLosses pexp plog PAD_idx reg_lambda output captions ⟨3, [l0, l1, l2]⟩ =
      some (⟨3, [l0 ++ [ce + reg_lambda * ent], l1 ++ [ce], l2 ++ [ent]]⟩,
        ce + reg_lambda * ent, ce, ent) := by
  simp only [trainBatchLosses, hce, Option.some_bind, hent, LossChecker.update,
    List.length_cons, List.length_nil, List.zip_cons_cons, List.zip_nil_right,
    List.map_cons, List.map_nil]
  norm_num

/-- Witness for C1: a concrete two-step, one-element batch with vocabulary
size 2, `<PAD> = 0`, `reg_lambda = 1`; the cross-entropy term is `-2`, the
entropy term is `-3`, and the recorded triple is `(-5, -2, -3)`. -/
theorem C1_train_batch_records_losses_witness :
    trainBatchLosses (fun _ => 1) (fun _ => 0) 0 1 [[[0, 0]], [[1, 2]]] [[0], [1]]
      ⟨3, [[], [], []]⟩ =
      some (⟨3, [[-5], [-2], [-3]]⟩, -5, -2, -3) := by
  have h := C1_train_batch_records_losses (fun _ => 1) (fun _ => 0) 0 1
    [[[0, 0]], [[1, 2]]] [[0], [1]] [] [] [] (-2) (-3)
    (by norm_num [nll_loss, List.filter, show ((1 : ℕ) != 0) = true from rfl])
    (by norm_num [losses_entropy_loss, entropy_loss, softmaxDim1, logSoftmaxDim1,
      softmaxVec, logSoftmaxVec, transposeL, consCol, sumDim0, listMean])
  rw [h]
  norm_num

/-! ### Claim C3 -/

theorem lookup_append_none {α : Type} [BEq α] {β : Type} (a : α) (l1 l2 : List (α × β))
    (h : List.lookup a l1 = none) : List.lookup a (l1 ++ l2) = List.lookup a l2 := by
  induction l1 with
  | nil => simp
  | cons e l1 ih =>
    simp only [List.lookup] at h ⊢
    cases hb : (a == e.1) with
    | true => simp [hb] at h
    | false => simp [hb] at h ⊢; exact ih h

theorem lookup_wasclass_clsToDictList (l : List (String × PyVal))
    (h : isConfigList l = true) : List.lookup "was_class" (clsToDictList l) = none := by
  induction l with
  | nil => simp [clsToDictList]
  | cons e l ih =>
    obtain ⟨p, v⟩ := e
    simp only [isConfigList, Bool.and_eq_true, bne_iff_ne] at h
    obtain ⟨⟨hp, _⟩, hrest⟩ := h
    by_cases hd : startsDunder p
    · simpa [clsToDictList, hd] using ih hrest
    · have hk : (("was_class" : String) == p) = false :=
        beq_eq_false_iff_ne.mpr (Ne.symm hp)
      simp [clsToDictList, hd, List.lookup, hk, ih hrest]

theorem dictToClsList_append (l1 l2 : List (String × PyVal)) :
    dictToClsList (l1 ++ l2) = dictToClsList l1 ++ dictToClsList l2 := by
  induction l1 with
  | nil => simp [dictToClsList]
  | cons e l1 ih =>
    obtain ⟨p, v⟩ := e
    by_cases hd : startsDunder p <;> simp [dictToClsList, hd, ih]

mutual
theorem rtValEq : ∀ (v : PyVal), isConfigVal v = true →
    dictToClsVal (clsToDictVal v) = expectedRTVal v
  | .base n, _ => rfl
  | .str s, _ => rfl
  | .boolv b, _ => rfl
  | .cls attrs, h => by
    have hl : isConfigList attrs = true := by simpa [isConfigVal] using h
    have hlook := lookup_wasclass_clsToDictList attrs hl
    have hlook2 : List.lookup "was_class"
        (clsToDictList attrs ++ [("was_class", PyVal.boolv true)]) =
        some (PyVal.boolv true) := by
      rw [lookup_append_none _ _ _ hlook]
      simp [List.lookup]
    simp only [clsToDictVal, dictToClsVal, hlook2, truthy, if_pos, expectedRTVal]
    rw [dictToClsList_append, rtListEq attrs hl]
    simp [dictToClsList, dictToClsVal, startsDunder]

theorem rtListEq : ∀ (l : List (String × PyVal)), isConfigList l = true →
    dictToClsList (clsToDictList l) = expectedRTList l
  | [], _ => rfl
  | (p, v) :: rest, h => by
    simp only [isConfigList, Bool.and_eq_true, bne_iff_ne] at h
    obtain ⟨⟨hp, hv⟩, hrest⟩ := h
    by_cases hd : startsDunder p
    · simp [clsToDictList, hd, expectedRTList, rtListEq rest hrest]
    · simp [clsToDictList, hd, dictToClsList, expectedRTList,
        rtValEq v hv, rtListEq rest hrest]
end

/-- C3 counterexample: on the one-attribute configuration
`x = [sub := class [a := 1]]`, the round trip `dict_to_cls(cls_to_dict(x))`
rebuilds the nested object with the internal `was_class` marker as one of
its attributes (value `True`), so the marker does leak into a
reconstructed object's attributes, contrary to the claim. -/
theorem C3_roundtrip_marker_leaks :
    dict_to_cls (cls_to_dict [("sub", PyVal.cls [("a", PyVal.base 1)])]) =
      [("sub", PyVal.struct [("a", PyVal.base 1), ("was_class", PyVal.boolv true)])] ∧
    dict_to_cls (cls_to_dict [("sub", PyVal.cls [("a", PyVal.base 1)])]) ≠
      [("sub", PyVal.struct [("a", PyVal.base 1)])] := by
  constructor
  · rfl
  · have h : dict_to_cls (cls_to_dict [("sub", PyVal.cls [("a", PyVal.base 1)])]) =
        [("sub", PyVal.struct [("a", PyVal.base 1), ("was_class", PyVal.boolv true)])] := rfl
    rw [h]
    simp

/-- C3 as amended: for every configuration object (public attributes are
plain values or nested class objects, recursively, none named
`was_class`), the round trip `dict_to_cls(cls_to_dict(x))` preserves every
flat and nested public attribute value, except that every reconstructed
nested object additionally carries the internal marker attribute
`was_class = True` as its last attribute (the top-level object gains no
marker); `expectedRTVal` / `expectedRTList` state this output by direct
recursion on `x`. -/
theorem C3_roundtrip_amended (x : List (String × PyVal))
    (h : isConfigList x = true) :
    dict_to_cls (cls_to_dict x) = expectedRTList x :=
  rtListEq x h

/-- Witness for C3 (amended): a two-attribute configuration with one
nested class. -/
theorem C3_roundtrip_amended_witness :
    dict_to_cls (cls_to_dict
        [("lr", PyVal.base 5), ("sub", PyVal.cls [("a", PyVal.base 1)])]) =
      expectedRTList [("lr", PyVal.base 5), ("sub", PyVal.cls [("a", PyVal.base 1)])] :=
  C3_roundtrip_amended
    [("lr", PyVal.base 5), ("sub", PyVal.cls [("a", PyVal.base 1)])] rfl

/-! ### Claim C9 -/

/-- C9: `score` and `save_result` fail exactly when the prediction map's
video-id key set differs from the reference map's key set, and proceed
otherwise; in particular a prediction map with key `v1` only against a
reference map with keys `v1` and `v2` fails in both functions. -/
theorem C9_keyset_enforcement
    (calc_scores : List (ℕ × List String) → List (ℕ × List String) → List (String × ℚ))
    (vid2pred : List (String × String)) (vid2GTs : List (String × List String)) :
    ((vid2pred.map Prod.fst).toFinset ≠ (vid2GTs.map Prod.fst).toFinset →
      score calc_scores vid2pred vid2GTs = none ∧
      save_result vid2pred vid2GTs = none) ∧
    ((vid2pred.map Prod.fst).toFinset = (vid2GTs.map Prod.fst).toFinset →
      (score calc_scores vid2pred vid2GTs).isSome ∧
      (save_result vid2pred vid2GTs).isSome) ∧
    score calc_scores [("v1", "a")] [("v1", ["b"]), ("v2", ["c"])] = none ∧
    save_result [("v1", "a")] [("v1", ["b"]), ("v2", ["c"])] = none := by
  refine ⟨fun hne => ⟨?_, ?_⟩, fun heq => ⟨?_, ?_⟩, ?_, ?_⟩
  · simp [score, hne]
  · simp [save_result, hne]
  · simp [score, heq]
  · simp [save_result, heq]
  · simp only [score]
    rw [if_neg (by decide)]
  · simp only [save_result]
    rw [if_neg (by decide)]

/-- Witness for C9: the failing branch applied at the concrete mismatched
maps of the claim's example. -/
theorem C9_keyset_enforcement_witness :
    score (fun _ _ => []) [("v1", "a")] [("v1", ["b"]), ("v2", ["c"])] = none ∧
    save_result [("v1", "a")] [("v1", ["b"]), ("v2", ["c"])] = none :=
  (C9_keyset_enforcement (fun _ _ => []) [("v1", "a")]
    [("v1", ["b"]), ("v2", ["c"])]).1 (by decide)

/-! ### Claim C2 -/

/-- C2 is contradicted by the code: `Decoder.__init__` reads the
never-assigned attribute `self.embedding_size` while building the token
embedding table (models.py line 48), so constructing a Decoder raises
`AttributeError` for every choice of parameters — no construction ever
succeeds, valid or not. -/
theorem C2_decoder_init_always_fails (rnn_type : String)
    (num_layers num_directions feat_size feat_len embedding_size
      hidden_size attn_size output_size : ℕ) (rnn_dropout : ℚ) :
    Decoder.init rnn_type num_layers num_directions feat_size feat_len
      embedding_size hidden_size attn_size output_size rnn_dropout = none :=
  rfl

/-- Evaluation of C2 at the concrete valid parameters named in the claim
record: a 1-layer unidirectional GRU decoder with all sizes 1 and dropout
0 still fails to construct. -/
theorem C2_decoder_init_concrete_failure :
    Decoder.init "GRU" 1 1 1 1 1 1 1 1 0 = none :=
  C2_decoder_init_always_fails "GRU" 1 1 1 1 1 1 1 1 0

/-! ### Claim C6 -/

theorem dedup_foldl_ne_nil {F : Type} (ps : List (String × F))
    (acc : List (String × F)) (h : acc ≠ []) :
    ps.foldl (fun acc p =>
      if (acc.lookup p.1).isSome then acc else acc ++ [p]) acc ≠ [] := by
  induction ps generalizing acc with
  | nil => simpa using h
  | cons p ps ih =>
    simp only [List.foldl_cons]
    apply ih
    by_cases hl : (acc.lookup p.1).isSome <;> simp [hl, h]

theorem dedupFirstSeen_ne_nil {F : Type} (pairs : List (String × F))
    (h : pairs ≠ []) : dedupFirstSeen pairs ≠ [] := by
  cases pairs with
  | nil => exact absurd rfl h
  | cons p ps =>
    unfold dedupFirstSeen
    simp only [List.foldl_cons, List.lookup_nil, Option.isSome_none,
      Bool.false_eq_true, if_false, List.nil_append]
    exact dedup_foldl_ne_nil ps [p] (by simp)

/-- C6 is contradicted by the code: whenever the batch iterator contains
at least one (video id, feature) pair, the deduplicated dict is non-empty
and the re-batching loop of `build_onlyonce_iter` slices the Python 3
`dict_keys` view (`vids[:batch_size]`), raising `TypeError` before any
beam search runs, so `get_predicted_captions` never returns the promised
mapping. -/
theorem C6_get_predicted_captions_crashes {F : Type}
    (describe : List F → ℕ → ℚ → List (List ℕ))
    (batches : List (PBatch F)) (word2idx : List (String × ℕ))
    (idx2word : ℕ → String) (beam_width : ℕ) (beam_alpha : ℚ)
    (h : batches.flatMap (fun b => b.vids.zip b.feats) ≠ []) :
    get_predicted_captions describe batches word2idx idx2word
      beam_width beam_alpha = none := by
  have hne := dedupFirstSeen_ne_nil _ h
  unfold get_predicted_captions build_onlyonce_iter
  rw [if_neg (by simpa [List.isEmpty_iff] using hne)]
  rfl

/-- Witness for C6: one batch containing one video. -/
theorem C6_get_predicted_captions_crashes_witness :
    get_predicted_captions (F := Unit) (fun _ _ _ => [])
      [⟨["v1"], [()], []⟩] [("<EOS>", 1)] (fun _ => "") 5 0 = none :=
  C6_get_predicted_captions_crashes (fun _ _ _ => [])
    [⟨["v1"], [()], []⟩] [("<EOS>", 1)] (fun _ => "") 5 0 (by decide)

/-! ### Claim C10 -/

/-- C10: the result of `evaluate` is independent of its `beam_width` and
`beam_alpha` arguments — any two calls differing only in those arguments
are equal (the body always calls `get_predicted_captions` with the
literals `beam_width=5, beam_alpha=0.`), for every iterator, model and
vocabulary. -/
theorem C10_evaluate_ignores_beam_args {F : Type}
    (describe : List F → ℕ → ℚ → List (List ℕ))
    (calc_scores : List (ℕ × List String) → List (ℕ × List String) → List (String × ℚ))
    (batches : List (PBatch F)) (word2idx : List (String × ℕ))
    (idx2word : ℕ → String) (bw bw2 : ℕ) (ba ba2 : ℚ) :
    evaluate describe calc_scores batches word2idx idx2word bw ba =
      evaluate describe calc_scores batches word2idx idx2word bw2 ba2 ∧
    evaluate describe calc_scores batches word2idx idx2word bw ba =
      evaluate describe calc_scores batches word2idx idx2word 5 0 :=
  ⟨rfl, rfl⟩

/-! ### Beam-search lemmas: stable argsort -/

theorem getD_mem_of_lt {α : Type} (l : List α) (j : ℕ) (d : α) (h : j < l.length) :
    l.getD j d ∈ l := by
  rw [List.getD_eq_getElem l d h]
  exact List.getElem_mem h

theorem insertDesc_perm (xs : List ℚ) (i : ℕ) (l : List ℕ) :
    List.Perm (insertDesc xs i l) (i :: l) := by
  induction l with
  | nil => exact List.Perm.refl _
  | cons j rest ih =>
    simp only [insertDesc]
    split
    · exact List.Perm.refl _
    · exact (ih.cons j).trans (List.Perm.swap i j rest)

theorem length_insertDesc (xs : List ℚ) (i : ℕ) (l : List ℕ) :
    (insertDesc xs i l).length = l.length + 1 := by
  simpa using (insertDesc_perm xs i l).length_eq

theorem foldl_insertDesc_perm (xs : List ℚ) (is : List ℕ) (acc : List ℕ) :
    List.Perm (is.foldl (fun a i => insertDesc xs i a) acc) (is ++ acc) := by
  induction is generalizing acc with
  | nil => simp
  | cons i is ih =>
    simp only [List.foldl_cons, List.cons_append]
    exact ((ih _).trans
      (List.Perm.append_left is (insertDesc_perm xs i acc))).trans List.perm_middle

theorem argsortDesc_perm (xs : List ℚ) :
    List.Perm (argsortDesc xs) (List.range xs.length) := by
  simpa using foldl_insertDesc_perm xs (List.range xs.length) []

theorem length_argsortDesc (xs : List ℚ) : (argsortDesc xs).length = xs.length := by
  simpa using (argsortDesc_perm xs).length_eq

theorem mem_argsortDesc_lt (xs : List ℚ) (a : ℕ) (h : a ∈ argsortDesc xs) :
    a < xs.length := by
  simpa using (argsortDesc_perm xs).mem_iff.mp h

theorem headD_insertDesc_cons (xs : List ℚ) (i j : ℕ) (rest : List ℕ) :
    (insertDesc xs i (j :: rest)).headD 0 =
      if xs.getD j 0 < xs.getD i 0 then i else j := by
  simp only [insertDesc]
  split <;> rfl

theorem argsort_prefix_head_spec (xs : List ℚ) :
    ∀ m, 1 ≤ m →
      (((List.range m).foldl (fun a i => insertDesc xs i a) []).headD 0 < m ∧
      (∀ v < m, xs.getD v 0 ≤
        xs.getD (((List.range m).foldl (fun a i => insertDesc xs i a) []).headD 0) 0) ∧
      ∀ v < ((List.range m).foldl (fun a i => insertDesc xs i a) []).headD 0,
        xs.getD v 0 <
          xs.getD (((List.range m).foldl (fun a i => insertDesc xs i a) []).headD 0) 0) := by
  intro m
  induction m with
  | zero => omega
  | succ m ih =>
    intro _
    by_cases hm : 1 ≤ m
    · obtain ⟨ih1, ih2, ih3⟩ := ih hm
      set accm := (List.range m).foldl (fun a i => insertDesc xs i a) [] with hacc
      have hlen : accm.length = m := by
        simpa using (foldl_insertDesc_perm xs (List.range m) []).length_eq
      obtain ⟨j, rest, hjrest⟩ : ∃ j rest, accm = j :: rest := by
        cases hc : accm with
        | nil => rw [hc] at hlen; simp at hlen; omega
        | cons j rest => exact ⟨j, rest, rfl⟩
      have hj : accm.headD 0 = j := by rw [hjrest]; rfl
      have hstep : (List.range (m + 1)).foldl (fun a i => insertDesc xs i a) [] =
          insertDesc xs m accm := by
        rw [List.range_succ, List.foldl_append]
        rfl
      rw [hstep, hjrest, headD_insertDesc_cons]
      rw [hj] at ih1 ih2 ih3
      by_cases hcmp : xs.getD j 0 < xs.getD m 0
      · rw [if_pos hcmp]
        refine ⟨by omega, ?_, ?_⟩
        · intro v hv
          rcases Nat.lt_succ_iff_lt_or_eq.mp hv with hv2 | rfl
          · exact le_of_lt (lt_of_le_of_lt (ih2 v hv2) hcmp)
          · exact le_refl _
        · intro v hv
          exact lt_of_le_of_lt (ih2 v hv) hcmp
      · rw [if_neg hcmp]
        refine ⟨by omega, ?_, ih3⟩
        intro v hv
        rcases Nat.lt_succ_iff_lt_or_eq.mp hv with hv2 | rfl
        · exact ih2 v hv2
        · exact le_of_not_lt hcmp
    · have hm0 : m = 0 := by omega
      subst hm0
      have h01 : (List.range 1).foldl (fun a i => insertDesc xs i a) [] = [0] := rfl
      rw [h01]
      refine ⟨by norm_num, ?_, by norm_num⟩
      intro v hv
      interval_cases v
      simp

theorem isFirstArgmax_argsortDesc_head (xs : List ℚ) (h : xs ≠ []) :
    IsFirstArgmax xs ((argsortDesc xs).headD 0) := by
  have hm : 1 ≤ xs.length := List.length_pos.mpr h
  have hspec := argsort_prefix_head_spec xs xs.length hm
  exact ⟨hspec.1, hspec.2.1, hspec.2.2⟩

/-! ### Beam-search lemmas: tensor shapes -/

theorem rows_consCol_nil {α : Type} (r : List α) :
    ∀ row ∈ consCol r [], row.length = 1 := by
  induction r with
  | nil => simp [consCol]
  | cons x xs ih =>
    intro row hrow
    simp only [consCol, List.mem_cons] at hrow
    rcases hrow with rfl | hrow
    · rfl
    · exact ih row hrow

theorem rows_consCol {α : Type} (r : List α) (m : List (List α)) (k : ℕ)
    (hlen : m.length = r.length) (hm : ∀ c ∈ m, c.length = k) :
    ∀ row ∈ consCol r m, row.length = k + 1 := by
  induction r generalizing m with
  | nil =>
    cases m with
    | nil => simp [consCol]
    | cons c cs => simp at hlen
  | cons x xs ih =>
    cases m with
    | nil => simp at hlen
    | cons c cs =>
      intro row hrow
      simp only [consCol, List.mem_cons] at hrow
      rcases hrow with rfl | hrow
      · simp [hm c (by simp)]
      · exact ih cs (by simpa using hlen) (fun c2 hc2 => hm c2 (by simp [hc2])) row hrow

theorem transposeL_length_rect {α : Type} (m : List (List α)) (n : ℕ)
    (hm : ∀ r ∈ m, r.length = n) (hne : m ≠ []) : (transposeL m).length = n := by
  cases m with
  | nil => exact absurd rfl hne
  | cons r rs =>
    show (consCol r (transposeL rs)).length = n
    rw [length_consCol]
    exact hm r (by simp)

theorem transposeL_rows_rect {α : Type} (m : List (List α)) (n : ℕ)
    (hm : ∀ r ∈ m, r.length = n) : ∀ row ∈ transposeL m, row.length = m.length := by
  induction m with
  | nil => simp [transposeL]
  | cons r rs ih =>
    intro row hrow
    show row.length = rs.length + 1
    cases hrs : rs with
    | nil =>
      subst hrs
      exact rows_consCol_nil r row hrow
    | cons r2 rs2 =>
      have hmrs : ∀ c ∈ rs, c.length = n := fun c hc => hm c (by simp [hc])
      have h1 : (transposeL rs).length = n :=
        transposeL_length_rect rs n hmrs (by simp [hrs])
      have h2 : ∀ c ∈ transposeL rs, c.length = rs.length := ih hmrs
      have := rows_consCol r (transposeL rs) rs.length
        (by rw [h1, hm r (by simp)]) h2 row hrow
      simpa [hrs] using this

theorem forall_mem_consCol {α : Type} {P : α → Prop} (r : List α) (m : List (List α))
    (hr : ∀ a ∈ r, P a) (hm : ∀ c ∈ m, ∀ a ∈ c, P a) :
    ∀ row ∈ consCol r m, ∀ a ∈ row, P a := by
  induction r generalizing m with
  | nil => simp [consCol]
  | cons x xs ih =>
    cases m with
    | nil =>
      intro row hrow
      simp only [consCol, List.mem_cons] at hrow
      rcases hrow with rfl | hrow
      · intro a ha
        simp only [List.mem_singleton] at ha
        exact ha ▸ hr x (by simp)
      · exact ih [] (fun a ha => hr a (by simp [ha])) (by simp) row hrow
    | cons c cs =>
      intro row hrow
      simp only [consCol, List.mem_cons] at hrow
      rcases hrow with rfl | hrow
      · intro a ha
        simp only [List.mem_cons] at ha
        rcases ha with rfl | ha
        · exact hr a (by simp)
        · exact hm c (by simp) a ha
      · exact ih cs (fun a ha => hr a (by simp [ha]))
          (fun c2 hc2 a ha => hm c2 (by simp [hc2]) a ha) row hrow

theorem forall_mem_transposeL {α : Type} {P : α → Prop} (m : List (List α))
    (h : ∀ r ∈ m, ∀ a ∈ r, P a) : ∀ row ∈ transposeL m, ∀ a ∈ row, P a := by
  induction m with
  | nil => simp [transposeL]
  | cons r rs ih =>
    show ∀ row ∈ consCol r (transposeL rs), ∀ a ∈ row, P a
    exact forall_mem_consCol r (transposeL rs) (h r (by simp))
      (ih (fun r2 hr2 => h r2 (by simp [hr2])))

theorem flatten_length_const {α : Type} (ls : List (List α)) (V : ℕ)
    (h : ∀ r ∈ ls, r.length = V) : ls.flatten.length = ls.length * V := by
  induction ls with
  | nil => simp
  | cons r rs ih =>
    simp only [List.flatten_cons, List.length_append, List.length_cons]
    rw [h r (by simp), ih (fun r2 hr2 => h r2 (by simp [hr2]))]
    ring

theorem catDim1_shape (xs : List (List (List ℚ))) (slots batch V : ℕ)
    (hx : xs.length = slots) (hrows : ∀ b ∈ xs, b.length = batch)
    (hinner : ∀ b ∈ xs, ∀ r ∈ b, r.length = V) (hs : 1 ≤ slots) :
    (catDim1 xs).length = batch ∧ ∀ row ∈ catDim1 xs, row.length = slots * V := by
  have hne : xs ≠ [] := by
    intro hc
    rw [hc] at hx
    simp at hx
    omega
  constructor
  · simpa [catDim1] using transposeL_length_rect xs batch hrows hne
  · intro row hrow
    simp only [catDim1, List.mem_map] at hrow
    obtain ⟨c, hc, rfl⟩ := hrow
    have hclen : c.length = slots := hx ▸ transposeL_rows_rect xs batch hrows c hc
    have hcrows : ∀ r ∈ c, r.length = V :=
      forall_mem_transposeL xs hinner c hc
    rw [flatten_length_const c V hcrows, hclen]

theorem mem_of_mem_enum {α : Type} {l : List α} {p : ℕ × α} (h : p ∈ l.enum) :
    p.2 ∈ l := by
  rw [List.mem_enum_iff_getElem?] at h
  exact List.getElem?_mem h

theorem slotCompute_shape {H : Type} (dec : ℕ → ℕ → H → (List ℚ × H)) (alpha : ℤ)
    (EOS_idx t : ℕ) (output_list : List (List (List ℕ)))
    (V batch : ℕ) (hdec : DecWF dec V)
    (q : ℕ × (List ℕ × (List H × List ℚ)))
    (hin : q.2.1.length = batch) (hhid : q.2.2.1.length = batch)
    (hcum : q.2.2.2.length = batch) (hout : output_list.length = batch) :
    (slotCompute dec alpha EOS_idx t output_list q).1.length = batch ∧
    (∀ r ∈ (slotCompute dec alpha EOS_idx t output_list q).1, r.length = V) ∧
    (slotCompute dec alpha EOS_idx t output_list q).2.1.length = batch ∧
    (∀ r ∈ (slotCompute dec alpha EOS_idx t output_list q).2.1, r.length = V) ∧
    (slotCompute dec alpha EOS_idx t output_list q).2.2.length = batch := by
  obtain ⟨i, input, hidden, cum⟩ := q
  simp only at hin hhid hcum
  simp only [slotCompute]
  have h0 : ∀ o ∈ ((input.zip hidden).enum.map
      (fun w => dec w.1 w.2.1 w.2.2)).map Prod.fst, o.length = V := by
    intro o ho
    obtain ⟨p, hp, rfl⟩ := List.mem_map.mp ho
    obtain ⟨w, _, rfl⟩ := List.mem_map.mp hp
    exact hdec w.1 w.2.1 w.2.2
  have h1 : ∀ r ∈ List.zipWith (fun m o => o.map (fun y => m * y))
      ((output_list.map (fun row => row.getD i [])).map
        (fun caption => if EOS_idx ∈ caption then (0 : ℚ) else 1))
      (((input.zip hidden).enum.map (fun w => dec w.1 w.2.1 w.2.2)).map Prod.fst),
      r.length = V := by
    refine forall_mem_zipWith _ _ (fun m _ o ho => ?_)
    simp [h0 o ho]
  have h2 : ∀ r ∈ List.zipWith (fun c o => o.map (fun y => y + c)) cum
      (List.zipWith (fun m o => o.map (fun y => m * y))
        ((output_list.map (fun row => row.getD i [])).map
          (fun caption => if EOS_idx ∈ caption then (0 : ℚ) else 1))
        (((input.zip hidden).enum.map (fun w => dec w.1 w.2.1 w.2.2)).map Prod.fst)),
      r.length = V := by
    refine forall_mem_zipWith _ _ (fun c _ o ho => ?_)
    simp [h1 o ho]
  refine ⟨?_, h2, ?_, ?_, ?_⟩
  · simp only [List.length_zipWith, List.length_map, List.map_map,
      List.enum_length, List.length_zip]
    omega
  · simp only [List.length_zipWith, List.length_map, List.map_map,
      List.enum_length, List.length_zip]
    omega
  · refine forall_mem_zipWith _ _ (fun f _ o ho => ?_)
    simp [h2 o ho]
  · simp only [List.length_map, List.map_map, List.enum_length, List.length_zip]
    omega

theorem beamStep_some {H : Type} [Inhabited H] (dec : ℕ → ℕ → H → (List ℚ × H))
    (V width : ℕ) (alpha : ℤ) (EOS_idx t : ℕ) (s : BeamState H)
    (slots batch plen : ℕ) (hwf : StateWF s slots batch plen) (hdec : DecWF dec V)
    (hs : 1 ≤ slots) (hb : 1 ≤ batch) (hw : 1 ≤ width) (hwv : width ≤ V) :
    ∃ s2, beamStep dec V width alpha EOS_idx t s = some s2 ∧
      StateWF s2 width batch (plen + 1) := by
  obtain ⟨hil, hhl, hcl, hirows, hhrows, hcrows, hol, horows⟩ := hwf
  have hV : 0 < V := by omega
  have hwsv : width ≤ slots * V := le_trans hwv (Nat.le_mul_of_pos_left V hs)
  unfold beamStep
  rw [if_pos (by constructor <;> omega)]
  set zs := (s.input_list.zip (s.hidden_list.zip s.cum_prob_list)).enum with hzs
  set slotData := zs.map (slotCompute dec alpha EOS_idx t s.output_list) with hsd
  have hsdlen : slotData.length = slots := by
    simp only [hsd, hzs, List.length_map, List.enum_length, List.length_zip]
    omega
  have hd1 : ∀ d ∈ slotData, d.1.length = batch ∧ (∀ r ∈ d.1, r.length = V) ∧
      d.2.1.length = batch ∧ (∀ r ∈ d.2.1, r.length = V) ∧
      d.2.2.length = batch := by
    intro d hd
    rw [hsd] at hd
    obtain ⟨q, hqz, rfl⟩ := List.mem_map.mp hd
    have hq2 : q.2 ∈ s.input_list.zip (s.hidden_list.zip s.cum_prob_list) :=
      mem_of_mem_enum hqz
    obtain ⟨hqin, hqrest⟩ := List.of_mem_zip hq2
    obtain ⟨hqhid, hqcum⟩ := List.of_mem_zip hqrest
    exact slotCompute_shape dec alpha EOS_idx t s.output_list V batch hdec q
      (hirows _ hqin) (hhrows _ hqhid) (hcrows _ hqcum) hol
  have hbo := catDim1_shape (slotData.map (fun d => d.1)) slots batch V
    (by simp [hsdlen])
    (by intro b hbm
        obtain ⟨d, hd, rfl⟩ := List.mem_map.mp hbm
        exact (hd1 d hd).1)
    (by intro b hbm r hr
        obtain ⟨d, hd, rfl⟩ := List.mem_map.mp hbm
        exact (hd1 d hd).2.1 r hr) hs
  have hno := catDim1_shape (slotData.map (fun d => d.2.1)) slots batch V
    (by simp [hsdlen])
    (by intro b hbm
        obtain ⟨d, hd, rfl⟩ := List.mem_map.mp hbm
        exact (hd1 d hd).2.2.1)
    (by intro b hbm r hr
        obtain ⟨d, hd, rfl⟩ := List.mem_map.mp hbm
        exact (hd1 d hd).2.2.2.1 r hr) hs
  set beam_topk := (catDim1 (slotData.map (fun d => d.2.1))).map
    (fun row => (argsortDesc row).take width) with htopk
  have htlen : beam_topk.length = batch := by
    simp only [htopk, List.length_map]
    exact hno.1
  have htrows : ∀ row ∈ beam_topk, row.length = width := by
    intro row hrow
    rw [htopk] at hrow
    obtain ⟨r, hr, rfl⟩ := List.mem_map.mp hrow
    have hrl : r.length = slots * V := hno.2 r hr
    simp only [List.length_take, length_argsortDesc, hrl]
    omega
  have htmem : ∀ row ∈ beam_topk, ∀ f ∈ row, f < slots * V := by
    intro row hrow f hf
    rw [htopk] at hrow
    obtain ⟨r, hr, rfl⟩ := List.mem_map.mp hrow
    have := mem_argsortDesc_lt r f (List.take_subset width (argsortDesc r) hf)
    rw [hno.2 r hr] at this
    exact this
  have hguard : (beam_topk.any (fun row => decide (row.length < width))) = false := by
    rw [List.any_eq_false]
    intro row hrow
    simp [htrows row hrow]
  show ∃ s2, (if beam_topk.any (fun row => decide (row.length < width)) then none
      else some (beamSelect V width s.output_list (slotData.map (fun d => d.2.2))
        (catDim1 (slotData.map (fun d => d.1))) beam_topk)) = some s2 ∧
    StateWF s2 width batch (plen + 1)
  rw [hguard]
  simp only [Bool.false_eq_true, if_false]
  refine ⟨_, rfl, ?_, ?_, ?_, ?_, ?_, ?_, ?_, ?_⟩
  · simp [beamSelect]
  · simp [beamSelect]
  · simp [beamSelect]
  · intro r hr
    simp only [beamSelect, List.mem_map] at hr
    obtain ⟨k, _, rfl⟩ := hr
    simp [htlen]
  · intro r hr
    simp only [beamSelect, List.mem_map] at hr
    obtain ⟨k, _, rfl⟩ := hr
    simp [htlen]
  · intro r hr
    simp only [beamSelect, List.mem_map] at hr
    obtain ⟨k, _, rfl⟩ := hr
    simp [htlen]
  · simp [beamSelect, htlen]
  · intro row hrow
    simp only [beamSelect, List.mem_map] at hrow
    obtain ⟨j, hj, rfl⟩ := hrow
    rw [List.mem_range, htlen] at hj
    constructor
    · simp
    · intro p hp
      simp only [List.mem_map] at hp
      obtain ⟨k, hk, rfl⟩ := hp
      rw [List.mem_range] at hk
      have hjt : j < beam_topk.length := by omega
      have hrowmem : beam_topk.getD j [] ∈ beam_topk := getD_mem_of_lt _ j [] hjt
      have hkrow : k < (beam_topk.getD j []).length := by
        rw [htrows _ hrowmem]
        exact hk
      have hfmem : (beam_topk.getD j []).getD k 0 ∈ beam_topk.getD j [] :=
        getD_mem_of_lt _ k 0 hkrow
      have hflt : (beam_topk.getD j []).getD k 0 < slots * V :=
        htmem _ hrowmem _ hfmem
      have hdiv : (beam_topk.getD j []).getD k 0 / V < slots :=
        (Nat.div_lt_iff_lt_mul hV).mpr (by
          calc (beam_topk.getD j []).getD k 0 < slots * V := hflt
            _ = slots * V := rfl)
      have hjo : j < s.output_list.length := by omega
      have homem : s.output_list.getD j [] ∈ s.output_list :=
        getD_mem_of_lt _ j [] hjo
      obtain ⟨holen, hopaths⟩ := horows _ homem
      have hpmem : (s.output_list.getD j []).getD
          ((beam_topk.getD j []).getD k 0 / V) [] ∈ s.output_list.getD j [] :=
        getD_mem_of_lt _ _ [] (by rw [holen]; exact hdiv)
      have hplen := hopaths _ hpmem
      simp only [List.length_append, List.length_cons, List.length_nil]
      simpa using hplen

theorem beamRun_wf {H : Type} [Inhabited H] (dec : ℕ → ℕ → H → (List ℚ × H))
    (V width batch : ℕ) (alpha : ℤ) (EOS_idx : ℕ) (hdec : DecWF dec V)
    (hb : 1 ≤ batch) (hw : 1 ≤ width) (hwv : width ≤ V) :
    ∀ (steps t : ℕ) (s : BeamState H) (slots plen : ℕ),
      StateWF s slots batch plen → 1 ≤ slots → 1 ≤ steps →
      ∃ s2, beamRun dec V width alpha EOS_idx steps t s = some s2 ∧
        StateWF s2 width batch (plen + steps) := by
  intro steps
  induction steps with
  | zero => omega
  | succ n ih =>
    intro t s slots plen hwf hs _
    obtain ⟨st2, hstep, hwf2⟩ := beamStep_some dec V width alpha EOS_idx t s
      slots batch plen hwf hdec hs hb hw hwv
    cases n with
    | zero =>
      refine ⟨st2, ?_, ?_⟩
      · simp only [beamRun, hstep]
      · simpa using hwf2
    | succ m =>
      obtain ⟨s3, hrun, hwf3⟩ := ih (t + 1) st2 width (plen + 1) hwf2
        (by omega) (by omega)
      refine ⟨s3, ?_, ?_⟩
      · have hred : beamRun dec V width alpha EOS_idx (m + 1 + 1) t s =
            match beamStep dec V width alpha EOS_idx t s with
            | none => none
            | some st2 => beamRun dec V width alpha EOS_idx (m + 1) (t + 1) st2 := rfl
        rw [hred, hstep]
        exact hrun
      · have harith : plen + 1 + (m + 1) = plen + (m + 1 + 1) := by omega
        rwa [harith] at hwf3

/-! ### Claim C4 -/

/-- C4 counterexample: with vocabulary size 3 and beam width 4 (a beam
width the claim's universal quantification over widths >= 1 includes),
the very first step offers only `1 * 3` candidates, the `[:, :width]`
slice is 3 columns wide, and reading column 3 raises `IndexError`
(`none`): `describe` returns no sequences at all, not sequences of length
`L + 2`. -/
theorem C4_beam_search_width_gt_vocab_fails :
    beam_search (fun _ _ _ => ([0, 0, 0], ())) 1 3 4 0 1 2 0 () = none := by
  norm_num [beam_search, beamRun, beamStep, slotCompute, beamSelect, argsortDesc,
    insertDesc, catDim1, transposeL, consCol, List.enum, List.enumFrom,
    List.range_succ]

/-- C4 as amended: for every deterministic decoder over vocabulary size
`V`, every `max_caption_len = L`, every batch size >= 1 and every beam
width with `1 <= width <= V`, `describe`/`beam_search` succeeds and
returns one index sequence per batch element of length exactly `L + 2`
(a leading `<SOS>` plus one token appended in each of the `L + 1` decode
steps). -/
theorem C4_beam_search_length {H : Type} [Inhabited H]
    (dec : ℕ → ℕ → H → (List ℚ × H)) (batch_size V width : ℕ) (alpha : ℤ)
    (SOS_idx EOS_idx L : ℕ) (h0 : H)
    (hdec : DecWF dec V) (hb : 1 ≤ batch_size) (hw : 1 ≤ width) (hwv : width ≤ V) :
    ∃ outs, beam_search dec batch_size V width alpha SOS_idx EOS_idx L h0 =
        some outs ∧
      outs.length = batch_size ∧ ∀ o ∈ outs, o.length = L + 2 := by
  have hinit : StateWF
      (⟨[List.replicate batch_size SOS_idx], [List.replicate batch_size h0],
        [List.replicate batch_size (0 : ℚ)],
        List.replicate batch_size [[]]⟩ : BeamState H) 1 batch_size 0 := by
    refine ⟨rfl, rfl, rfl, ?_, ?_, ?_, by simp, ?_⟩
    · intro r hr
      simp only [List.mem_singleton] at hr
      simp [hr]
    · intro r hr
      simp only [List.mem_singleton] at hr
      simp [hr]
    · intro r hr
      simp only [List.mem_singleton] at hr
      simp [hr]
    · intro row hrow
      have := List.eq_of_mem_replicate hrow
      subst this
      refine ⟨by simp, ?_⟩
      intro p hp
      simp only [List.mem_singleton] at hp
      simp [hp]
  obtain ⟨fin, hrun, hwfF⟩ := beamRun_wf dec V width batch_size alpha EOS_idx hdec
    hb hw hwv (L + 1) 0 _ 1 0 hinit (by omega) (by omega)
  have hdo : beam_search dec batch_size V width alpha SOS_idx EOS_idx L h0 =
      (beamRun dec V width alpha EOS_idx (L + 1) 0
        ⟨[List.replicate batch_size SOS_idx], [List.replicate batch_size h0],
          [List.replicate batch_size (0 : ℚ)],
          List.replicate batch_size [[]]⟩).bind
        (fun final => some (final.output_list.map (fun o => SOS_idx :: o.getD 0 []))) :=
    rfl
  obtain ⟨_, _, _, _, _, _, holF, horowsF⟩ := hwfF
  refine ⟨fin.output_list.map (fun o => SOS_idx :: o.getD 0 []), ?_, ?_, ?_⟩
  · rw [hdo, hrun]
    rfl
  · simp [holF]
  · intro o ho
    obtain ⟨row, hrow, rfl⟩ := List.mem_map.mp ho
    obtain ⟨hrlen, hrpaths⟩ := horowsF row hrow
    have h0row : row.getD 0 [] ∈ row := getD_mem_of_lt row 0 [] (by omega)
    have := hrpaths _ h0row
    simp only [List.length_cons, this]
    omega

/-- Witness for C4 (amended): a concrete vocabulary-3, width-2, one-step
run. -/
theorem C4_beam_search_length_witness :
    ∃ outs, beam_search (fun _ _ _ => ([0, 0, 0], ())) 1 3 2 0 1 2 0 () =
        some outs ∧ outs.length = 1 ∧ ∀ o ∈ outs, o.length = 0 + 2 :=
  C4_beam_search_length (fun _ _ _ => ([0, 0, 0], ())) 1 3 2 0 1 2 0 ()
    (fun _ _ _ => rfl) (by omega) (by omega) (by omega)

/-! ### Claim C5: width-1 lemmas -/

theorem getD_map {α β : Type} (f : α → β) (l : List α) (j : ℕ) (da : α) (db : β)
    (h : j < l.length) : (l.map f).getD j db = f (l.getD j da) := by
  rw [List.getD_eq_getElem _ _ (by simpa using h), List.getD_eq_getElem _ _ h,
    List.getElem_map]

theorem getD_zipWith {α β γ : Type} (f : α → β → γ) (a : List α) (b : List β)
    (j : ℕ) (da : α) (db : β) (dc : γ) (ha : j < a.length) (hb : j < b.length) :
    (List.zipWith f a b).getD j dc = f (a.getD j da) (b.getD j db) := by
  have hl : j < (List.zipWith f a b).length := by
    simp only [List.length_zipWith]
    omega
  rw [List.getD_eq_getElem _ _ hl, List.getD_eq_getElem _ _ ha,
    List.getD_eq_getElem _ _ hb, List.getElem_zipWith]

theorem getD_zip {α β : Type} (a : List α) (b : List β) (j : ℕ)
    (da : α) (db : β) (ha : j < a.length) (hb : j < b.length) :
    (a.zip b).getD j (da, db) = (a.getD j da, b.getD j db) := by
  have hl : j < (a.zip b).length := by
    simp only [List.length_zip]
    omega
  rw [List.getD_eq_getElem _ _ hl, List.getD_eq_getElem _ _ ha,
    List.getD_eq_getElem _ _ hb, List.getElem_zip]

theorem getD_enum {α : Type} (l : List α) (j : ℕ) (d : α)
    (h : j < l.length) : l.enum.getD j (0, d) = (j, l.getD j d) := by
  have hl : j < l.enum.length := by simpa using h
  rw [List.getD_eq_getElem _ _ hl, List.getD_eq_getElem _ _ h]
  exact List.getElem_enum l j hl

theorem getD_range (n j : ℕ) (h : j < n) : (List.range n).getD j 0 = j := by
  rw [List.getD_eq_getElem _ _ (by simpa using h)]
  simp

theorem take_one_eq_headD (l : List ℕ) (h : l ≠ []) :
    l.take 1 = [l.headD 0] := by
  cases l with
  | nil => exact absurd rfl h
  | cons a t => rfl

theorem consCol_nil_map {α : Type} (r : List α) :
    consCol r [] = r.map (fun a => [a]) := by
  induction r with
  | nil => rfl
  | cons x xs ih => simp [consCol, ih]

theorem catDim1_singleton (m : List (List ℚ)) : catDim1 [m] = m := by
  show (consCol m (transposeL [])).map List.flatten = m
  rw [show transposeL ([] : List (List (List ℚ))) = [] from rfl, consCol_nil_map,
    List.map_map]
  have hcomp : (List.flatten ∘ fun (a : List ℚ) => [a]) = id := by
    funext a
    simp
  rw [hcomp, List.map_id]

theorem nf_pos (alpha : ℤ) (L : ℕ) :
    0 < ((5 + (L : ℚ)) ^ alpha) / ((6 : ℚ) ^ alpha) := by
  apply div_pos
  · exact zpow_pos (by positivity) alpha
  · exact zpow_pos (by norm_num) alpha

theorem isFirstArgmax_map (xs : List ℚ) (g : ℚ → ℚ) (hg : StrictMono g) (i : ℕ)
    (h : IsFirstArgmax (xs.map g) i) : IsFirstArgmax xs i := by
  obtain ⟨h1, h2, h3⟩ := h
  rw [List.length_map] at h1
  refine ⟨h1, ?_, ?_⟩
  · intro v hv
    have := h2 v (by simpa using hv)
    rw [getD_map g xs v 0 0 hv, getD_map g xs i 0 0 h1] at this
    exact hg.le_iff_le.mp this
  · intro v hv
    have := h3 v hv
    rw [getD_map g xs v 0 0 (lt_trans hv h1), getD_map g xs i 0 0 h1] at this
    exact hg.lt_iff_lt.mp this

theorem isFirstArgmax_const (xs : List ℚ) (c : ℚ) (hall : ∀ y ∈ xs, y = c)
    (i : ℕ) (h : IsFirstArgmax xs i) : i = 0 := by
  by_contra hne
  have h0 : (0 : ℕ) < i := Nat.pos_of_ne_zero hne
  have hlt := h.2.2 0 h0
  have e0 : xs.getD 0 0 = c := hall _ (getD_mem_of_lt xs 0 0 (by have := h.1; omega))
  have ei : xs.getD i 0 = c := hall _ (getD_mem_of_lt xs i 0 h.1)
  rw [e0, ei] at hlt
  exact lt_irrefl c hlt

set_option maxHeartbeats 1600000 in
/-- C5 as amended: a width-1 beam-search step on any width-1 state (one
slot holding per-batch-element input tokens, hidden slices, cumulative
log-probabilities, and one path per batch element) appends to each path:
the first argmax of that step's decoder log-probability output as long as
the path does not yet contain `<EOS>`; but once `<EOS>` has been emitted,
the masked scores all tie and the stable sort selects token index 0
regardless of the decoder output. -/
theorem C5_beam_width1_greedy_step {H : Type} [Inhabited H]
    (dec : ℕ → ℕ → H → (List ℚ × H)) (V : ℕ) (alpha : ℤ) (EOS_idx t batch : ℕ)
    (inp : List ℕ) (hid : List H) (cum : List ℚ) (paths : List (List ℕ))
    (hdec : DecWF dec V) (hV : 1 ≤ V)
    (hinp : inp.length = batch) (hhid : hid.length = batch)
    (hcum : cum.length = batch) (hpaths : paths.length = batch) :
    ∃ s2, beamStep dec V 1 alpha EOS_idx t
        ⟨[inp], [hid], [cum], paths.map (fun p => [p])⟩ = some s2 ∧
      s2.output_list.length = batch ∧
      ∀ j < batch, ∃ tok,
        s2.output_list.getD j [] = [paths.getD j [] ++ [tok]] ∧
        (EOS_idx ∉ paths.getD j [] →
          IsFirstArgmax (dec j (inp.getD j 0) (hid.getD j default)).1 tok) ∧
        (EOS_idx ∈ paths.getD j [] → tok = 0) := by
  set d := slotCompute dec alpha EOS_idx t (paths.map (fun p => [p]))
    (0, (inp, (hid, cum))) with hd
  have hout_len : (paths.map (fun p => [p])).length = batch := by simp [hpaths]
  have hshape := slotCompute_shape dec alpha EOS_idx t (paths.map (fun p => [p]))
    V batch hdec (0, (inp, (hid, cum))) (by simpa using hinp) (by simpa using hhid)
    (by simpa using hcum) hout_len
  rw [← hd] at hshape
  obtain ⟨h1len, h1rows, h21len, h21rows, h22len⟩ := hshape
  unfold beamStep
  rw [if_pos ⟨rfl, rfl⟩]
  show ∃ s2, (if ((catDim1 ([d].map (fun x => x.2.1))).map
        (fun row => (argsortDesc row).take 1)).any
        (fun row => decide (row.length < 1)) then none
      else some (beamSelect V 1 (paths.map (fun p => [p]))
        ([d].map (fun x => x.2.2)) (catDim1 ([d].map (fun x => x.1)))
        ((catDim1 ([d].map (fun x => x.2.1))).map
          (fun row => (argsortDesc row).take 1)))) = some s2 ∧
      _ ∧ _
  have hsing : ([d].map (fun x => x.2.1)) = [d.2.1] := rfl
  rw [hsing, catDim1_singleton]
  set topk := d.2.1.map (fun row => (argsortDesc row).take 1) with htopkdef
  have htklen : topk.length = batch := by
    rw [htopkdef, List.length_map, h21len]
  have hguard : (topk.any (fun row => decide (row.length < 1))) = false := by
    rw [List.any_eq_false]
    intro row hrow
    rw [htopkdef] at hrow
    obtain ⟨r, hr, rfl⟩ := List.mem_map.mp hrow
    have hrlen : r.length = V := h21rows r hr
    simp only [List.length_take, length_argsortDesc, hrlen, decide_eq_true_eq]
    omega
  rw [hguard]
  simp only [Bool.false_eq_true, if_false]
  refine ⟨_, rfl, ?_, ?_⟩
  · simp [beamSelect, htklen]
  · intro j hj
    have hjn : j < d.2.1.length := by rw [h21len]; exact hj
    set rowj := d.2.1.getD j [] with hrowjdef
    have hrowj_mem : rowj ∈ d.2.1 := getD_mem_of_lt _ j [] hjn
    have hrowj_len : rowj.length = V := h21rows _ hrowj_mem
    have hrowj_ne : rowj ≠ [] := by
      intro hc
      rw [hc] at hrowj_len
      simp at hrowj_len
      omega
    have htopk_getD : topk.getD j [] = (argsortDesc rowj).take 1 := by
      rw [htopkdef]
      exact getD_map _ _ j [] [] hjn
    set f0 := (argsortDesc rowj).headD 0 with hf0
    have hsortne : argsortDesc rowj ≠ [] := by
      intro hc
      have hlen := length_argsortDesc rowj
      rw [hc, hrowj_len] at hlen
      simp at hlen
      omega
    have htake : (argsortDesc rowj).take 1 = [f0] := take_one_eq_headD _ hsortne
    have hfa : IsFirstArgmax rowj f0 := isFirstArgmax_argsortDesc_head rowj hrowj_ne
    have hflt : f0 < V := by
      have := hfa.1
      rw [hrowj_len] at this
      exact this
    -- the j-th output row of the selected state
    have hrowsel : (beamSelect V 1 (paths.map (fun p => [p]))
          ([d].map (fun x => x.2.2)) (catDim1 ([d].map (fun x => x.1)))
          topk).output_list.getD j [] =
        [((paths.map (fun p => [p])).getD j []).getD
            ((topk.getD j []).getD 0 0 / V) [] ++
          [(topk.getD j []).getD 0 0 % V]] := by
      show ((List.range topk.length).map (fun j => (List.range 1).map
        (fun k => (((paths.map (fun p => [p])).getD j []).getD
          ((topk.getD j []).getD k 0 / V) []) ++
          [(topk.getD j []).getD k 0 % V]))).getD j [] = _
      rw [getD_map _ _ j 0 [] (by rw [List.length_range, htklen]; exact hj),
        getD_range topk.length j (by rw [htklen]; exact hj)]
      rfl
    have hflat : (topk.getD j []).getD 0 0 = f0 := by
      rw [htopk_getD, htake]
      rfl
    have hpathsel : ((paths.map (fun p => [p])).getD j []).getD 0 [] =
        paths.getD j [] := by
      rw [getD_map (fun p => [p]) paths j [] [] (by rw [hpaths]; exact hj)]
      rfl
    rw [hflat, Nat.div_eq_of_lt hflt, Nat.mod_eq_of_lt hflt, hpathsel] at hrowsel
    -- decompose rowj into the decoder output transformed elementwise
    set capL := (paths.map (fun p => [p])).map (fun row => row.getD 0 []) with hcapL
    set maskL := capL.map
      (fun caption => if EOS_idx ∈ caption then (0 : ℚ) else 1) with hmaskL
    set out0L := ((inp.zip hid).enum.map (fun w => dec w.1 w.2.1 w.2.2)).map
      Prod.fst with hout0L
    set out1L := List.zipWith (fun m o => o.map (fun y => m * y)) maskL out0L
      with hout1L
    set out2L := List.zipWith (fun c o => o.map (fun y => y + c)) cum out1L
      with hout2L
    set nfL := (capL.map (fun caption => if EOS_idx ∈ caption
      then caption.indexOf EOS_idx + 1 else t + 1)).map
      (fun (L : ℕ) => ((5 + (L : ℚ)) ^ alpha) / ((6 : ℚ) ^ alpha)) with hnfL
    have hd21 : d.2.1 = List.zipWith (fun f o => o.map (fun y => y / f)) nfL out2L := by
      rw [hd]
      rfl
    have hcaplen : capL.length = batch := by
      rw [hcapL]
      simp [hpaths]
    have hcap_j : capL.getD j [] = paths.getD j [] := by
      rw [hcapL, getD_map (fun row => row.getD 0 []) (paths.map (fun p => [p])) j [] []
        (by rw [List.length_map, hpaths]; exact hj), hpathsel]
    have hmasklen : maskL.length = batch := by
      rw [hmaskL, List.length_map, hcaplen]
    have hmask_j : maskL.getD j 0 =
        (if EOS_idx ∈ paths.getD j [] then (0 : ℚ) else 1) := by
      rw [hmaskL, getD_map _ capL j [] 0 (by rw [hcaplen]; exact hj), hcap_j]
    have hout0len : out0L.length = batch := by
      rw [hout0L, List.length_map, List.length_map, List.enum_length,
        List.length_zip]
      omega
    have hdh_j : ((inp.zip hid).enum.map (fun w => dec w.1 w.2.1 w.2.2)).getD j
        (dec 0 0 default) = dec j (inp.getD j 0) (hid.getD j default) := by
      rw [getD_map (fun w => dec w.1 w.2.1 w.2.2) ((inp.zip hid).enum) j
          ((0, (0, default)) : ℕ × ℕ × H) (dec 0 0 default)
          (by rw [List.enum_length, List.length_zip]; omega),
        getD_enum (inp.zip hid) j ((0, default) : ℕ × H)
          (by rw [List.length_zip]; omega),
        getD_zip inp hid j 0 default (by omega) (by omega)]
    have hout0_j : out0L.getD j [] =
        (dec j (inp.getD j 0) (hid.getD j default)).1 := by
      rw [hout0L, getD_map Prod.fst ((inp.zip hid).enum.map
          (fun w => dec w.1 w.2.1 w.2.2)) j (dec 0 0 default) []
        (by rw [List.length_map, List.enum_length, List.length_zip]; omega), hdh_j]
    have hout1len : out1L.length = batch := by
      rw [hout1L, List.length_zipWith, hmasklen, hout0len]
      omega
    have hout1_j : out1L.getD j [] =
        (dec j (inp.getD j 0) (hid.getD j default)).1.map
          (fun y => (if EOS_idx ∈ paths.getD j [] then (0 : ℚ) else 1) * y) := by
      rw [hout1L, getD_zipWith (fun m o => o.map (fun y => m * y)) maskL out0L j 0 [] []
        (by rw [hmasklen]; exact hj) (by rw [hout0len]; exact hj), hmask_j, hout0_j]
    have hout2len : out2L.length = batch := by
      rw [hout2L, List.length_zipWith, hcum, hout1len]
      omega
    have hout2_j : out2L.getD j [] =
        ((dec j (inp.getD j 0) (hid.getD j default)).1.map
          (fun y => (if EOS_idx ∈ paths.getD j [] then (0 : ℚ) else 1) * y)).map
          (fun y => y + cum.getD j 0) := by
      rw [hout2L, getD_zipWith (fun c o => o.map (fun y => y + c)) cum out1L j 0 [] []
        (by omega) (by rw [hout1len]; exact hj), hout1_j]
    have hnflen : nfL.length = batch := by
      rw [hnfL, List.length_map, List.length_map, hcaplen]
    have hnf_j : nfL.getD j 0 =
        ((5 + ((if EOS_idx ∈ paths.getD j []
          then (paths.getD j []).indexOf EOS_idx + 1 else t + 1 : ℕ) : ℚ)) ^ alpha) /
          ((6 : ℚ) ^ alpha) := by
      rw [hnfL, getD_map (fun (L : ℕ) => ((5 + (L : ℚ)) ^ alpha) / ((6 : ℚ) ^ alpha))
          (capL.map (fun caption => if EOS_idx ∈ caption
            then caption.indexOf EOS_idx + 1 else t + 1)) j 0 0
          (by rw [List.length_map, hcaplen]; exact hj),
        getD_map (fun caption => if EOS_idx ∈ caption
          then caption.indexOf EOS_idx + 1 else t + 1) capL j [] 0
          (by rw [hcaplen]; exact hj), hcap_j]
    have hrowj_eq : rowj = (((dec j (inp.getD j 0) (hid.getD j default)).1.map
        (fun y => (if EOS_idx ∈ paths.getD j [] then (0 : ℚ) else 1) * y)).map
        (fun y => y + cum.getD j 0)).map
        (fun y => y / (((5 + ((if EOS_idx ∈ paths.getD j []
          then (paths.getD j []).indexOf EOS_idx + 1 else t + 1 : ℕ) : ℚ)) ^ alpha) /
          ((6 : ℚ) ^ alpha))) := by
      rw [hrowjdef, hd21,
        getD_zipWith (fun f o => o.map (fun y => y / f)) nfL out2L j 0 [] []
          (by rw [hnflen]; exact hj) (by rw [hout2len]; exact hj),
        hnf_j, hout2_j]
    refine ⟨f0, hrowsel, ?_, ?_⟩
    · intro hE
      have hg : StrictMono (fun y : ℚ =>
          ((if EOS_idx ∈ paths.getD j [] then (0 : ℚ) else 1) * y + cum.getD j 0) /
          (((5 + ((if EOS_idx ∈ paths.getD j []
            then (paths.getD j []).indexOf EOS_idx + 1 else t + 1 : ℕ) : ℚ)) ^ alpha) /
            ((6 : ℚ) ^ alpha))) := by
        intro a b hab
        simp only [if_neg hE, one_mul]
        exact div_lt_div_of_pos_right (by exact add_lt_add_right hab _)
          (nf_pos alpha (t + 1))
      apply isFirstArgmax_map _ _ hg
      have hcomp : rowj = (dec j (inp.getD j 0) (hid.getD j default)).1.map
          (fun y : ℚ =>
            ((if EOS_idx ∈ paths.getD j [] then (0 : ℚ) else 1) * y + cum.getD j 0) /
            (((5 + ((if EOS_idx ∈ paths.getD j []
              then (paths.getD j []).indexOf EOS_idx + 1 else t + 1 : ℕ) : ℚ)) ^ alpha) /
              ((6 : ℚ) ^ alpha))) := by
        rw [hrowj_eq, List.map_map, List.map_map]
        rfl
      rw [← hcomp]
      exact hfa
    · intro hE
      have hall : ∀ y ∈ rowj, y = cum.getD j 0 /
          (((5 + ((if EOS_idx ∈ paths.getD j []
            then (paths.getD j []).indexOf EOS_idx + 1 else t + 1 : ℕ) : ℚ)) ^ alpha) /
            ((6 : ℚ) ^ alpha)) := by
        rw [hrowj_eq]
        intro y hy
        simp only [List.map_map, List.mem_map] at hy
        obtain ⟨a, _, rfl⟩ := hy
        simp only [Function.comp_apply, if_pos hE, zero_mul, zero_add]
      exact isFirstArgmax_const rowj _ hall f0 hfa

/-- Witness for C5 (amended): a width-1 step of `dec0` on a singleton
batch with an empty path. -/
theorem C5_beam_width1_greedy_step_witness :
    ∃ s2, beamStep dec0 3 1 0 2 0
        ⟨[[1]], [[()]], [[0]], ([[]] : List (List ℕ)).map (fun p => [p])⟩ =
        some s2 ∧
      s2.output_list.length = 1 ∧
      ∀ j < 1, ∃ tok,
        s2.output_list.getD j [] =
          [([[]] : List (List ℕ)).getD j [] ++ [tok]] ∧
        (2 ∉ ([[]] : List (List ℕ)).getD j [] →
          IsFirstArgmax
            (dec0 j (([1] : List ℕ).getD j 0)
              (([()] : List Unit).getD j default)).1 tok) ∧
        (2 ∈ ([[]] : List (List ℕ)).getD j [] → tok = 0) :=
  C5_beam_width1_greedy_step dec0 3 0 2 0 1 [1] [()] [0] [[]]
    (by intro j tok h
        simp only [dec0]
        split <;> rfl)
    (by omega) rfl rfl rfl rfl

/-- C5 counterexample: with `<SOS> = 1`, `<EOS> = 2` and the decoder
`dec0`, width-1 beam search over two steps returns `[1, 2, 0]` — the
first step emits `<EOS>` (argmax of `[0, -1, 5]`), after which the
completed beam's scores are zeroed and all candidates tie, so the second
step appends token 0; but the second step's decoder output is
`[0, 5, 1]`, whose argmax is token 1, not 0.  The chosen token therefore
differs from the argmax of that step's decoder output, contradicting the
claim. -/
theorem C5_beam_width1_not_argmax :
    beam_search dec0 1 3 1 0 1 2 1 () = some [[1, 2, 0]] ∧
    (dec0 0 2 ()).1 = [0, 5, 1] ∧
    IsFirstArgmax (dec0 0 2 ()).1 1 ∧
    ¬ IsFirstArgmax (dec0 0 2 ()).1 0 := by
  refine ⟨?_, rfl, ⟨?_, ?_, ?_⟩, ?_⟩
  · norm_num [beam_search, beamRun, beamStep, slotCompute, beamSelect, dec0,
      argsortDesc, insertDesc, catDim1, transposeL, consCol, List.enum,
      List.enumFrom, List.range_succ]
  · norm_num [dec0]
  · intro v hv
    norm_num [dec0] at hv
    interval_cases v <;> norm_num [dec0, List.getD]
  · intro v hv
    interval_cases v
    norm_num [dec0, List.getD]
  · intro hc
    have := hc.2.1 1 (by norm_num [dec0])
    norm_num [dec0, List.getD] at this

end VideoCaptioning
